import Mathlib

/-!
# hay-kot/parallel: bounded fan-out / fan-in (`Gather`)

A verification development for `options.go` and `gatherer.go`.

* `options.go` is pure and is embedded as plain functions.
* `gatherer.go` starts goroutines.  It is embedded as an interleaving
  semantics: a state records where every goroutine stands, an `Action`
  names the goroutine that moves next, `step` performs that move, and a
  schedule is a list of actions.  A statement about `Gather` quantifies
  over all schedules.

The goroutines of one call are: the caller (`Gather`, lines 35-60), the
dispatcher (`go func() { err = dispatch(...) }()`, lines 43-45 and 62-88),
one worker per `g.Go` call (the closure of lines 71-84 inside the wrapper
of `errgroup.Group.Go`), and the collector (lines 48-53).

The library primitives are embedded by their documented behaviour:

* `errgroup.WithContext(ctx)` gives a context that is done when `ctx` is
  done or when the group cancels it; the group cancels it when the first
  function returns a non-nil error and when `Wait` returns;
* `g.SetLimit(n)` with `n >= 0` makes `g.Go` block while `n` functions
  started by it have not returned; a negative `n` removes the limit;
* `g.Go(f)` runs `f` in a new goroutine; a non-nil result is stored in
  `g.err` by the first goroutine to report one (`errOnce`), before the
  slot is given back;
* `g.Wait()` blocks until every function started has returned and gives
  back `g.err`;
* a send on an unbuffered channel completes together with a receive; a
  receive from a closed channel ends a `range` loop; a send on a closed
  channel panics;
* a deferred call runs when the function returns, before the caller goes
  on, so `close(done)` precedes the assignment `err = ...` of line 44.

A move goes from one synchronisation point of a goroutine to its next.
Steps that no other goroutine can observe apart are one move (a send with
the append of the received value; the end of a worker with the release of
its slot).
-/

namespace Parallel

/-! ## options.go -/

/-- A `context.Context` handle as the engine can observe it: the root context,
or a caller-owned context that is either still live (its owner may cancel it
at any moment) or already cancelled. -/
inductive Context where
  | background : Context
  | live (id : Nat) : Context
  | canceled (id : Nat) : Context
  deriving DecidableEq

/-- Whether `ctx.Done()` is closed at the moment the handle is handed over. -/
def Context.done : Context → Bool
  | .canceled _ => true
  | _ => false

/-- Whether the owner of the context can still close `ctx.Done()`. -/
def Context.canFire : Context → Bool
  | .live _ => true
  | _ => false

/-- The struct `options` of options.go. -/
structure options where
  maxProcs : Int
  ctx : Context
  deriving DecidableEq

/-- The type `optionsFunc` of options.go: `func(*options)`, a mutator. -/
abbrev optionsFunc := options → options

/-- `WithMaxProcs(maxProcs)`: the closure assigns the field only when
`maxProcs > 0`. -/
def WithMaxProcs (maxProcs : Int) : optionsFunc :=
  fun opts => if maxProcs > 0 then { opts with maxProcs := maxProcs } else opts

/-- `WithContext(ctx)`: the closure assigns the context field. -/
def WithContext (ctx : Context) : optionsFunc :=
  fun opts => { opts with ctx := ctx }

/-- `newOptions(opts...)`: start from `{runtime.NumCPU(), context.Background()}`
and run every mutator in slice order.  `numCPU` stands for the value of
`runtime.NumCPU()`. -/
def newOptions (numCPU : Int) (opts : List optionsFunc) : options :=
  opts.foldl (fun o opt => opt o) { maxProcs := numCPU, ctx := Context.background }

/-- The two option constructors exported by the package, as data. -/
inductive Opt where
  | maxProcs (n : Int) : Opt
  | context (c : Context) : Opt
  deriving DecidableEq

/-- The mutator an option constructor call evaluates to. -/
def Opt.toFunc : Opt → optionsFunc
  | .maxProcs n => WithMaxProcs n
  | .context c => WithContext c

/-- The context an option hands over, if it is a `WithContext`. -/
def Opt.contextArg : Opt → Option Context
  | .context c => some c
  | .maxProcs _ => none

/-- The cap an option asks for, if it is a `WithMaxProcs(n)` with `n > 0`. -/
def Opt.positiveArg : Opt → Option Int
  | .maxProcs n => if n > 0 then some n else none
  | .context _ => none

/-- Stated from the specification: the argument of the last `WithContext`
of the sequence, `Background` when there is none. -/
def lastContext (opts : List Opt) : Context :=
  ((opts.filterMap Opt.contextArg).getLast?).getD Context.background

/-- Stated from the specification: the `n` of the last `WithMaxProcs(n)` with
`n > 0` of the sequence, the default when there is none. -/
def lastPositiveMaxProcs (dflt : Int) (opts : List Opt) : Int :=
  ((opts.filterMap Opt.positiveArg).getLast?).getD dflt

/-! ## gatherer.go -/

/-- The type `ProducerFunc[T]`, `func(ctx context.Context) (T, error)`.  The
argument is what the body can learn from the context it is handed: whether
that context is done when the body returns.  The value is the pair the Go
function returns, `none` standing for the nil error. -/
abbrev ProducerFunc (T E : Type) := Bool → T × Option E

/-- Where the goroutine that `g.Go` starts for one task stands.  The first
four are live (the goroutine holds a token of the group semaphore), the
last three are final. -/
inductive Worker (T E : Type) where
  /-- Spawned by `g.Go`, the `select` not yet executed. -/
  | started : Worker T E
  /-- Took the `default` branch: inside `task(ctx)`. -/
  | running : Worker T E
  /-- The call `task(ctx)` returned `(r, nil)`: blocked in `result <- r`. -/
  | sending (r : T) : Worker T E
  /-- The call `task(ctx)` returned `(v, e)` with `e != nil`: at `return err`. -/
  | failing (v : T) (e : E) : Worker T E
  /-- Took the `<-ctx.Done()` branch and returned nil. -/
  | skipped : Worker T E
  /-- Sent `r` on `result` and returned nil. -/
  | succeeded (r : T) : Worker T E
  /-- Returned `e` to the group. -/
  | failed (v : T) (e : E) : Worker T E
  deriving DecidableEq

/-- The goroutine still holds its semaphore token (`g.done()` has not run). -/
def Worker.isLive {T E : Type} : Worker T E → Bool
  | .started => true
  | .running => true
  | .sending _ => true
  | .failing _ _ => true
  | _ => false

/-- The producer body is executing. -/
def Worker.isRunning {T E : Type} : Worker T E → Bool
  | .running => true
  | _ => false

/-- The value the worker has published on `result`, if any. -/
def Worker.value {T E : Type} : Worker T E → Option T
  | .succeeded r => some r
  | _ => none

/-- The goroutine `go func() { err = dispatch(...) }()` of Gather. -/
inductive Dispatcher (E : Type) where
  /-- Inside `dispatch`: in the `for` loop or blocked in `g.Wait()`. -/
  | looping : Dispatcher E
  /-- The call `dispatch` has returned `e` and its deferred `close(done)` has
  run; the assignment `err = e` in the caller has not. -/
  | returned (e : Option E) : Dispatcher E
  /-- The assignment to `err` is done and the goroutine is over. -/
  | exited : Dispatcher E
  deriving DecidableEq

/-- The goroutine that called `Gather`. -/
inductive Main (T E : Type) where
  /-- Blocked in `<-done`; `results` is open. -/
  | waitDone : Main T E
  /-- After `close(results)`, blocked in `wg.Wait()`. -/
  | waitCollector : Main T E
  /-- Executed `return arr, err` with these two values. -/
  | returned (arr : List T) (err : Option E) : Main T E
  deriving DecidableEq

/-- One global state of a call of `Gather`. -/
structure State (T E : Type) where
  /-- The channel `o.ctx.Done()` is closed. -/
  parentDone : Bool
  /-- The cancel function of the context made by `errgroup.WithContext` has been called. -/
  canceled : Bool
  /-- The field `g.err` of the group (set once, under `g.errOnce`). -/
  gerr : Option E
  /-- One entry per `g.Go` call made so far, in task order. -/
  workers : List (Worker T E)
  dispatcher : Dispatcher E
  /-- The collector goroutine is in its `for r := range results` loop. -/
  collecting : Bool
  /-- The local `arr` of Gather. -/
  arr : List T
  /-- The local `err` of Gather. -/
  err : Option E
  main : Main T E
  /-- A send on the closed channel `results` has crashed the process. -/
  panicked : Bool
  deriving DecidableEq

/-- The context returned by `errgroup.WithContext(o.ctx)` is done: its parent
is done or the group has cancelled it. -/
def State.ctxDone {T E : Type} (s : State T E) : Bool :=
  s.parentDone || s.canceled

/-- Number of tokens held in the semaphore channel `g.sem`. -/
def State.live {T E : Type} (s : State T E) : Nat :=
  s.workers.countP Worker.isLive

/-- Number of producer bodies executing. -/
def State.active {T E : Type} (s : State T E) : Nat :=
  s.workers.countP Worker.isRunning

/-- Replace the entry of worker `i`. -/
def State.setWorker {T E : Type} (s : State T E) (i : Nat) (w : Worker T E) : State T E :=
  { s with workers := s.workers.set i w }

/-- The moves of the interleaving semantics: which goroutine runs next, up
to its next synchronisation point. -/
inductive Action where
  /-- The owner of `o.ctx` cancels it. -/
  | ctxCancel : Action
  /-- Dispatcher: `g.Go(...)` for the next task (takes a token, spawns). -/
  | groupGo : Action
  /-- Worker `i`: the `select` on `ctx.Done()`. -/
  | workerSelect (i : Nat) : Action
  /-- Worker `i`: `task(ctx)` returns. -/
  | taskReturn (i : Nat) : Action
  /-- Worker `i`: `result <- r` meets the collector, which appends to `arr`;
  the worker returns nil and gives its token back. -/
  | resultSend (i : Nat) : Action
  /-- Worker `i`: `return err`; the group records it under `errOnce`,
  cancels its context, and the token is given back. -/
  | workerFail (i : Nat) : Action
  /-- Dispatcher: `g.Wait()` returns, then the deferred `close(done)`. -/
  | groupWait : Action
  /-- Dispatcher goroutine: the assignment `err = ...`. -/
  | errStore : Action
  /-- Main: `<-done` then `close(results)`. -/
  | closeResults : Action
  /-- Collector: the range loop ends on the closed channel, `wg.Done()`. -/
  | collectorExit : Action
  /-- Main: `wg.Wait()` returns, then `return arr, err`. -/
  | gatherReturn : Action
  deriving DecidableEq

/-- The admission test of `g.Go` after `g.SetLimit(maxProcs)`: a negative
limit means no semaphore, otherwise the semaphore channel has capacity
`maxProcs` and the send blocks while it is full. -/
def admits {T E : Type} (maxProcs : Int) (s : State T E) : Bool :=
  decide (maxProcs < 0) || decide ((s.live : Int) < maxProcs)

/-- One move of one goroutine; `none` when that goroutine is blocked, over,
or does not exist.  Nothing moves once Gather has returned or the process
has crashed. -/
def step? {T E : Type} (tasks : List (ProducerFunc T E)) (o : options)
    (s : State T E) (a : Action) : Option (State T E) :=
  if s.panicked then none else
  match s.main with
  | .returned _ _ => none
  | _ =>
  match a with
  -- outside the package: the owner of `o.ctx` cancels it
  | .ctxCancel =>
      if o.ctx.canFire && !s.parentDone then some { s with parentDone := true } else none
  -- dispatch, lines 68-85: the next iteration of `for _, task := range tasks`
  | .groupGo =>
      match s.dispatcher with
      | .looping =>
          if s.workers.length < tasks.length ∧ admits o.maxProcs s = true then
            some { s with workers := s.workers ++ [Worker.started] }
          else none
      | _ => none
  -- lines 72-75: `select { case <-ctx.Done(): return nil; default: ... }`
  | .workerSelect i =>
      match s.workers[i]? with
      | some .started =>
          if s.ctxDone then some (s.setWorker i .skipped)
          else some (s.setWorker i .running)
      | _ => none
  -- lines 76-79: `r, err := task(ctx)` and the test `err != nil`
  | .taskReturn i =>
      match s.workers[i]?, tasks[i]? with
      | some .running, some task =>
          match task s.ctxDone with
          | (r, none) => some (s.setWorker i (.sending r))
          | (v, some e) => some (s.setWorker i (.failing v e))
      | _, _ => none
  -- line 80 `result <- r` with lines 50-52 `arr = append(arr, r)`, then line 83
  | .resultSend i =>
      match s.workers[i]? with
      | some (.sending r) =>
          match s.main with
          | .waitDone => some { s.setWorker i (.succeeded r) with arr := s.arr ++ [r] }
          | _ => some { s with panicked := true }
      | _ => none
  -- line 78 `return err`, then `g.errOnce.Do(...)` and `g.done()` of errgroup
  | .workerFail i =>
      match s.workers[i]? with
      | some (.failing v e) =>
          match s.gerr with
          | none => some { s.setWorker i (.failed v e) with gerr := some e, canceled := true }
          | some _ => some (s.setWorker i (.failed v e))
      | _ => none
  -- line 87 `return g.Wait()`, then line 63 `defer close(done)`
  | .groupWait =>
      match s.dispatcher with
      | .looping =>
          if s.workers.length = tasks.length ∧ s.live = 0 then
            some { s with canceled := true, dispatcher := .returned s.gerr }
          else none
      | _ => none
  -- line 44: the assignment `err = ...` once `dispatch` has returned
  | .errStore =>
      match s.dispatcher with
      | .returned e => some { s with err := e, dispatcher := .exited }
      | _ => none
  -- lines 55-56: `<-done` and `close(results)`
  | .closeResults =>
      match s.main, s.dispatcher with
      | .waitDone, .looping => none
      | .waitDone, _ => some { s with main := .waitCollector }
      | _, _ => none
  -- lines 49-53: the `range` loop ends, the deferred `wg.Done()` runs
  | .collectorExit =>
      match s.main with
      | .waitCollector => if s.collecting then some { s with collecting := false } else none
      | _ => none
  -- lines 57-59: `wg.Wait()` and `return arr, err`
  | .gatherReturn =>
      match s.main with
      | .waitCollector =>
          if s.collecting then none else some { s with main := .returned s.arr s.err }
      | _ => none

/-- One scheduling decision: the chosen goroutine moves if it can, otherwise
nothing happens. -/
def step {T E : Type} (tasks : List (ProducerFunc T E)) (o : options)
    (s : State T E) (a : Action) : State T E :=
  (step? tasks o s a).getD s

/-- Run a schedule. -/
def exec {T E : Type} (tasks : List (ProducerFunc T E)) (o : options)
    (s : State T E) (sched : List Action) : State T E :=
  sched.foldl (step tasks o) s

/-- The state in which `Gather` has made its channels and started the
dispatcher and collector goroutines: `errgroup.WithContext(o.ctx)` yields a
context that is done from the start exactly when `o.ctx` is. -/
def initState {T E : Type} (o : options) : State T E :=
  { parentDone := o.ctx.done, canceled := false, gerr := none, workers := [],
    dispatcher := .looping, collecting := true, arr := [], err := none,
    main := .waitDone, panicked := false }

/-- The state a call `Gather(tasks, opts...)` is in after the schedule. -/
def gatherState {T E : Type} (numCPU : Int) (tasks : List (ProducerFunc T E))
    (opts : List optionsFunc) (sched : List Action) : State T E :=
  exec tasks (newOptions numCPU opts) (initState (newOptions numCPU opts)) sched

/-- `Gather(tasks, opts...)` under a schedule: the pair it returns, `none`
when the schedule ends before `return arr, err`. -/
def Gather {T E : Type} (numCPU : Int) (tasks : List (ProducerFunc T E))
    (opts : List optionsFunc) (sched : List Action) : Option (List T × Option E) :=
  match (gatherState numCPU tasks opts sched).main with
  | .returned arr err => some (arr, err)
  | _ => none

/-! ## Proof-side vocabulary -/

/-- The moves of `step?`, one constructor per branch that yields a state.
It is the relational reading of `step?` without the two global guards;
`step?_sound` and `step?_complete` relate the two. -/
inductive Move {T E : Type} (tasks : List (ProducerFunc T E)) (o : options)
    (s : State T E) :
    Action → State T E → Prop where
  | ctxCancel (hc : o.ctx.canFire = true) (hp : s.parentDone = false) :
      Move tasks o s .ctxCancel { s with parentDone := true }
  | groupGo (hd : s.dispatcher = .looping) (hl : s.workers.length < tasks.length)
      (ha : admits o.maxProcs s = true) :
      Move tasks o s .groupGo { s with workers := s.workers ++ [Worker.started] }
  | skip (i : Nat) (hw : s.workers[i]? = some .started) (hc : s.ctxDone = true) :
      Move tasks o s (.workerSelect i) (s.setWorker i .skipped)
  | start (i : Nat) (hw : s.workers[i]? = some .started) (hc : s.ctxDone = false) :
      Move tasks o s (.workerSelect i) (s.setWorker i .running)
  | taskOk (i : Nat) (p : ProducerFunc T E) (r : T) (hw : s.workers[i]? = some .running)
      (ht : tasks[i]? = some p) (hr : p s.ctxDone = (r, none)) :
      Move tasks o s (.taskReturn i) (s.setWorker i (.sending r))
  | taskErr (i : Nat) (p : ProducerFunc T E) (v : T) (e : E)
      (hw : s.workers[i]? = some .running)
      (ht : tasks[i]? = some p) (hr : p s.ctxDone = (v, some e)) :
      Move tasks o s (.taskReturn i) (s.setWorker i (.failing v e))
  | send (i : Nat) (r : T) (hw : s.workers[i]? = some (.sending r)) (hm : s.main = .waitDone) :
      Move tasks o s (.resultSend i) { s.setWorker i (.succeeded r) with arr := s.arr ++ [r] }
  | sendClosed (i : Nat) (r : T) (hw : s.workers[i]? = some (.sending r))
      (hm : s.main = .waitCollector) :
      Move tasks o s (.resultSend i) { s with panicked := true }
  | failFirst (i : Nat) (v : T) (e : E) (hw : s.workers[i]? = some (.failing v e))
      (hg : s.gerr = none) :
      Move tasks o s (.workerFail i)
        { s.setWorker i (.failed v e) with gerr := some e, canceled := true }
  | failLater (i : Nat) (v : T) (e e0 : E) (hw : s.workers[i]? = some (.failing v e))
      (hg : s.gerr = some e0) :
      Move tasks o s (.workerFail i) (s.setWorker i (.failed v e))
  | groupWait (hd : s.dispatcher = .looping) (hl : s.workers.length = tasks.length)
      (h0 : s.live = 0) :
      Move tasks o s .groupWait { s with canceled := true, dispatcher := .returned s.gerr }
  | errStore (e : Option E) (hd : s.dispatcher = .returned e) :
      Move tasks o s .errStore { s with err := e, dispatcher := .exited }
  | closeResults (hm : s.main = .waitDone) (hd : s.dispatcher ≠ .looping) :
      Move tasks o s .closeResults { s with main := .waitCollector }
  | collectorExit (hm : s.main = .waitCollector) (hc : s.collecting = true) :
      Move tasks o s .collectorExit { s with collecting := false }
  | gatherReturn (hm : s.main = .waitCollector) (hc : s.collecting = false) :
      Move tasks o s .gatherReturn { s with main := .returned s.arr s.err }

/-- What the entry of a worker says about the task it was started for: a
value it holds or has sent, or a failure it holds or has reported, is what
that task returned for some state of the context. -/
def Worker.agrees {T E : Type} (task : Option (ProducerFunc T E)) : Worker T E → Prop
  | .sending r => ∃ p b, task = some p ∧ p b = (r, none)
  | .succeeded r => ∃ p b, task = some p ∧ p b = (r, none)
  | .failing v e => ∃ p b, task = some p ∧ p b = (v, some e)
  | .failed v e => ∃ p b, task = some p ∧ p b = (v, some e)
  | _ => True

/-- The facts that hold in every state a call of Gather can reach. -/
structure Inv {T E : Type} (tasks : List (ProducerFunc T E)) (s : State T E) : Prop where
  /-- The loop has not started more workers than there are tasks. -/
  len : s.workers.length ≤ tasks.length
  /-- Once `dispatch` has returned, every task has a worker and all are over. -/
  joined : s.dispatcher ≠ .looping →
    s.workers.length = tasks.length ∧ ∀ (i : Nat) (w : Worker T E), s.workers[i]? = some w → w.isLive = false
  /-- The channel `results` is closed only after `done` is. -/
  closed : s.main ≠ .waitDone → s.dispatcher ≠ .looping
  /-- The collector leaves its loop only after `results` is closed. -/
  drained : s.collecting = false → s.main ≠ .waitDone
  /-- No send on a closed channel happens. -/
  safe : s.panicked = false
  /-- The slice `arr` holds the values sent so far, in some order. -/
  arr : s.arr.Perm (s.workers.filterMap Worker.value)
  /-- The pair returned is `arr` and `err` as they stand, the collector being over. -/
  ret : ∀ a e, s.main = .returned a e → a = s.arr ∧ e = s.err ∧ s.collecting = false
  /-- The local `err` is nil or what the group recorded. -/
  err : s.err = none ∨ s.err = s.gerr
  /-- The value `dispatch` returned is what the group recorded. -/
  dret : ∀ e, s.dispatcher = .returned e → e = s.gerr
  /-- Every entry agrees with its task. -/
  agrees : ∀ (i : Nat) (w : Worker T E), s.workers[i]? = some w → w.agrees tasks[i]?
  /-- While `g.err` is nil no worker has reported a failure and the group has
  not cancelled its context before `g.Wait()` returned. -/
  gerrNone : s.gerr = none →
    (∀ (i : Nat) (v : T) (e : E), s.workers[i]? ≠ some (Worker.failed v e)) ∧
    (s.dispatcher = .looping → s.canceled = false)
  /-- A recorded `g.err` is the failure some worker reported. -/
  gerrSome : ∀ e, s.gerr = some e → ∃ (i : Nat) (v : T), s.workers[i]? = some (Worker.failed v e)

/-- Moves a worker still has to make. -/
def Worker.fuel {T E : Type} : Worker T E → Nat
  | .started => 3
  | .running => 2
  | .sending _ => 1
  | .failing _ _ => 1
  | _ => 0

/-- Moves the dispatcher goroutine still has to make after its loop. -/
def Dispatcher.fuel {E : Type} : Dispatcher E → Nat
  | .looping => 2
  | .returned _ => 1
  | .exited => 0

/-- Moves the calling goroutine still has to make. -/
def Main.fuel {T E : Type} : Main T E → Nat
  | .waitDone => 2
  | .waitCollector => 1
  | .returned _ _ => 0

/-- What is left to do in a state: every move lowers it. -/
def State.fuel {T E : Type} (tasks : List (ProducerFunc T E)) (o : options)
    (s : State T E) : Nat :=
  4 * (tasks.length - s.workers.length)
  + (s.workers.map Worker.fuel).sum
  + s.dispatcher.fuel
  + s.main.fuel
  + (if s.collecting then 1 else 0)
  + (if o.ctx.canFire && !s.parentDone then 1 else 0)
  + (if s.panicked then 0 else 1)

/-- How a finished worker stands to its task: skipped (the task was not
called), or holding what the call returned, a value with nil error or a
failure.  A worker that is not finished has no outcome. -/
def Worker.outcomeOf {T E : Type} (task : Option (ProducerFunc T E)) : Worker T E → Prop
  | .skipped => True
  | .succeeded r => ∃ p b, task = some p ∧ p b = (r, none)
  | .failed v e => ∃ p b, task = some p ∧ p b = (v, some e)
  | _ => False

/-- In a run without failure and without cancellation a worker is on its way
to publishing what its task returns under a live context. -/
def Worker.onTrack {T E : Type} (task : Option (ProducerFunc T E)) : Worker T E → Prop
  | .started => True
  | .running => True
  | .sending r => ∃ p, task = some p ∧ (p false).1 = r
  | .succeeded r => ∃ p, task = some p ∧ (p false).1 = r
  | _ => False

/-- Stated from the specification: the sequential loop over the input.  The
producers are called one at a time in input order with a live context; the
first failure ends the loop; the result is the values before it, in input
order, and that failure (nil when there is none). -/
def gatherSequential {T E : Type} : List (ProducerFunc T E) → List T × Option E
  | [] => ([], none)
  | p :: rest =>
      match p false with
      | (r, none) => (r :: (gatherSequential rest).1, (gatherSequential rest).2)
      | (_, some e) => ([], some e)

/-- The sequential loop, one task further: the worker entries, the slice and
the recorded failure after the next producer has had its turn. -/
def seqStep {T E : Type} (acc : List (Worker T E) × List T × Option E)
    (p : ProducerFunc T E) : List (Worker T E) × List T × Option E :=
  match acc.2.2 with
  | some e => (acc.1 ++ [Worker.skipped], acc.2.1, some e)
  | none =>
      match p false with
      | (r, none) => (acc.1 ++ [Worker.succeeded r], acc.2.1 ++ [r], none)
      | (v, some e) => (acc.1 ++ [Worker.failed v e], acc.2.1, some e)

/-- The sequential loop over a list of tasks, from the empty state. -/
def seqAfter {T E : Type} (ts : List (ProducerFunc T E)) :
    List (Worker T E) × List T × Option E :=
  ts.foldl seqStep ([], [], none)

/-- Under a cap of one, what the single live worker may be doing, given its
task and what the group has recorded. -/
def Worker.inTurn {T E : Type} (task : Option (ProducerFunc T E)) (gerr : Option E) :
    Worker T E → Prop
  | .started => True
  | .running => gerr = none
  | .sending r => gerr = none ∧ ∃ p, task = some p ∧ p false = (r, none)
  | .failing v e => gerr = none ∧ ∃ p, task = some p ∧ p false = (v, some e)
  | _ => False

/-- Under a cap of one and a parent context that has not fired, the state is
the state of the sequential loop after the finished workers, plus at most
one live worker taking its turn. -/
def Sequential {T E : Type} (tasks : List (ProducerFunc T E)) (s : State T E) : Prop :=
  ∃ (ws : List (Worker T E)) (rest : List (Worker T E)),
    s.workers = ws ++ rest ∧
    (ws, s.arr, s.gerr) = seqAfter (tasks.take ws.length) ∧
    (∀ w ∈ ws, w.isLive = false) ∧
    (s.gerr ≠ none → s.canceled = true) ∧
    (rest = [] ∨ ∃ w, rest = [w] ∧ w.inTurn tasks[ws.length]? s.gerr)

/-- How the entry of one worker can change over a run: a started worker
may end anywhere; a running worker (its producer has been called) is never
started again nor skipped; a worker holding a value keeps it until it has
sent it; a worker holding a failure keeps it until it has reported it; a
final entry never changes. -/
def Worker.evolves {T E : Type} : Worker T E → Worker T E → Prop
  | .started, _ => True
  | .running, w => w ≠ .started ∧ w ≠ .skipped
  | .sending r, w => w = .sending r ∨ w = .succeeded r
  | .failing v e, w => w = .failing v e ∨ w = .failed v e
  | .skipped, w => w = .skipped
  | .succeeded r, w => w = .succeeded r
  | .failed v e, w => w = .failed v e

/-! ## Fixtures of gatherer_test.go -/

/-- The variable `ErrAbort`, `errors.New("abort")`. -/
def ErrAbort : String := "abort"

/-- A producer `func(ctx) (string, error) { return v, nil }`. -/
def succeeds (v : String) : ProducerFunc String String := fun _ => (v, none)

/-- A producer `func(ctx) (string, error) { return v, ErrAbort }`. -/
def aborts (v : String) : ProducerFunc String String := fun _ => (v, some ErrAbort)

/-- The producers of `Test_Gather_Error`. -/
def errorProducers : List (ProducerFunc String String) :=
  [succeeds "a", aborts "invalid", succeeds "c"]

/-- The producers of `Test_Gather`, without the sleep. -/
def letterProducers : List (ProducerFunc String String) :=
  ["a", "b", "c", "d", "e", "f", "g", "h", "i", "j"].map succeeds

/-- One interleaving of `Test_Gather` under a cap of four: the workers are
admitted as slots are given back and publish out of input order. -/
def letterSchedule : List Action :=
  [.groupGo, .groupGo, .groupGo, .groupGo,
   .workerSelect 0, .workerSelect 1, .workerSelect 2, .workerSelect 3,
   .taskReturn 3, .resultSend 3, .groupGo, .taskReturn 0, .resultSend 0, .groupGo,
   .workerSelect 4, .workerSelect 5, .taskReturn 1, .taskReturn 2, .taskReturn 4,
   .taskReturn 5, .resultSend 5, .resultSend 4, .resultSend 2, .resultSend 1,
   .groupGo, .groupGo, .groupGo, .groupGo,
   .workerSelect 6, .workerSelect 7, .workerSelect 8, .workerSelect 9,
   .taskReturn 6, .taskReturn 7, .taskReturn 8, .taskReturn 9,
   .resultSend 6, .resultSend 7, .resultSend 8, .resultSend 9,
   .groupWait, .errStore, .closeResults, .collectorExit, .gatherReturn]

/-- An interleaving of `Test_Gather_Error` with the default options: all
three producers run, the failure is recorded by the group, `dispatch`
returns and closes `done`, and the calling goroutine gets through
`close(results)`, `wg.Wait()` and `return arr, err` before the dispatcher
goroutine has executed its assignment to `err`. -/
def lostErrorSchedule : List Action :=
  [.groupGo, .groupGo, .groupGo, .workerSelect 0, .workerSelect 1, .workerSelect 2,
   .taskReturn 0, .taskReturn 1, .taskReturn 2, .resultSend 0, .workerFail 1,
   .resultSend 2, .groupWait, .closeResults, .collectorExit, .gatherReturn]

/-- The interleaving of `Test_Gather_Error` under `WithMaxProcs(1)` up to
the point where `dispatch` has returned: one worker at a time, in input
order. -/
def oneAtATimeSchedule : List Action :=
  [.groupGo, .workerSelect 0, .taskReturn 0, .resultSend 0,
   .groupGo, .workerSelect 1, .taskReturn 1, .workerFail 1,
   .groupGo, .workerSelect 2, .groupWait]

/-- Two producers, the first of which returns its value whatever the state
of the context. -/
def lateProducers : List (ProducerFunc String String) :=
  [fun _ => ("late", none), aborts "invalid"]

/-- An interleaving of `lateProducers` under a cap of two in which the
second producer fails, the group cancels its context, and only then the
first producer, already running, returns its value. -/
def lateSchedule : List Action :=
  [.groupGo, .groupGo, .workerSelect 0, .workerSelect 1, .taskReturn 1, .workerFail 1,
   .taskReturn 0, .resultSend 0, .groupWait, .errStore, .closeResults, .collectorExit,
   .gatherReturn]

/-! ## Theorems -/

variable {T E : Type}

/-! ### The step function and its relational reading -/

theorem step?_sound {tasks : List (ProducerFunc T E)} {o : options} {s s' : State T E}
    {a : Action} (h : step? tasks o s a = some s') :
    s.panicked = false ∧ (∀ x y, s.main ≠ .returned x y) ∧ Move tasks o s a s' := by
  unfold step? at h
  split at h
  · simp at h
  rename_i hp
  split at h
  · simp at h
  rename_i hm
  refine ⟨by simpa using hp, fun x y hxy => hm x y hxy, ?_⟩
  cases a <;> simp only at h
  · split at h
    · rename_i hc
      simp at hc
      cases h
      exact Move.ctxCancel hc.1 hc.2
    · simp at h
  · split at h
    · split at h
      · rename_i hd hc
        cases h
        exact Move.groupGo hd hc.1 hc.2
      · simp at h
    · simp at h
  · rename_i i
    split at h
    · rename_i hw
      split at h
      · rename_i hc
        cases h
        exact Move.skip i hw hc
      · rename_i hc
        cases h
        exact Move.start i hw (by simpa using hc)
    · simp at h
  · rename_i i
    split at h
    · rename_i p hw ht
      split at h
      · rename_i r hr
        cases h
        exact Move.taskOk i p r hw ht hr
      · rename_i v e hr
        cases h
        exact Move.taskErr i p v e hw ht hr
    · simp at h
  · rename_i i
    split at h
    · rename_i r hw
      split at h
      · rename_i hm2
        cases h
        exact Move.send i r hw hm2
      · rename_i hm2
        cases h
        refine Move.sendClosed i r hw ?_
        cases hs : s.main with
        | waitDone => exact absurd hs hm2
        | waitCollector => rfl
        | returned x y => exact absurd hs (hm x y)
    · simp at h
  · rename_i i
    split at h
    · rename_i v e hw
      split at h
      · rename_i hg
        cases h
        exact Move.failFirst i v e hw hg
      · rename_i e0 hg
        cases h
        exact Move.failLater i v e e0 hw hg
    · simp at h
  · split at h
    · rename_i hd
      split at h
      · rename_i hc
        cases h
        exact Move.groupWait hd hc.1 hc.2
      · simp at h
    · simp at h
  · split at h
    · rename_i e hd
      cases h
      exact Move.errStore e hd
    · simp at h
  · split at h
    · simp at h
    · rename_i hm2 hd
      cases h
      exact Move.closeResults hm2 hd
    · simp at h
  · split at h
    · rename_i hm2
      split at h
      · rename_i hc
        cases h
        exact Move.collectorExit hm2 hc
      · simp at h
    · simp at h
  · split at h
    · rename_i hm2
      split at h
      · simp at h
      · rename_i hc
        cases h
        exact Move.gatherReturn hm2 (by simpa using hc)
    · simp at h

theorem step?_complete {tasks : List (ProducerFunc T E)} {o : options} {s s' : State T E}
    {a : Action} (hp : s.panicked = false) (hm : ∀ x y, s.main ≠ .returned x y)
    (h : Move tasks o s a s') : step? tasks o s a = some s' := by
  unfold step?
  rw [if_neg (by simp [hp])]
  cases hs : s.main with
  | returned x y => exact absurd hs (hm x y)
  | waitDone =>
    cases h <;> simp_all
  | waitCollector =>
    cases h <;> simp_all

/-! ### Lists -/

theorem filterMap_set_of_none {α β : Type} (f : α → Option β) (b : α) (hb : f b = none) :
    ∀ (l : List α) (i : Nat) (a : α), l[i]? = some a → f a = none →
      (l.set i b).filterMap f = l.filterMap f
  | [], i, a, h, _ => by simp at h
  | x :: l, 0, a, h, ha => by
      simp at h
      subst h
      simp [List.filterMap_cons, hb, ha]
  | x :: l, i + 1, a, h, ha => by
      simp at h
      have ih := filterMap_set_of_none f b hb l i a h ha
      simp [List.filterMap_cons, ih]

theorem filterMap_set_of_some {α β : Type} (f : α → Option β) (b : α) (r : β)
    (hb : f b = some r) :
    ∀ (l : List α) (i : Nat) (a : α), l[i]? = some a → f a = none →
      ((l.set i b).filterMap f).Perm (r :: l.filterMap f)
  | [], i, a, h, _ => by simp at h
  | x :: l, 0, a, h, ha => by
      simp at h
      subst h
      simp [List.filterMap_cons, hb, ha]
  | x :: l, i + 1, a, h, ha => by
      simp at h
      have ih := filterMap_set_of_some f b r hb l i a h ha
      simp only [List.set_cons_succ, List.filterMap_cons]
      cases hx : f x with
      | none => simpa using ih
      | some y =>
        simp only
        exact (List.Perm.cons y ih).trans (List.Perm.swap r y _)


theorem Inv.init (tasks : List (ProducerFunc T E)) (o : options) :
    Inv tasks (initState o : State T E) := by
  constructor <;> simp [initState]

/-- A live worker exists only while `dispatch` is in its loop or in `g.Wait()`. -/
theorem Inv.looping_of_live {tasks : List (ProducerFunc T E)} {s : State T E}
    (inv : Inv tasks s) {i : Nat} {w : Worker T E} (hw : s.workers[i]? = some w)
    (hl : w.isLive = true) : s.dispatcher = .looping := by
  by_contra hd
  have := (inv.joined hd).2 i w hw
  simp [hl] at this

theorem Inv.waitDone_of_live {tasks : List (ProducerFunc T E)} {s : State T E}
    (inv : Inv tasks s) {i : Nat} {w : Worker T E} (hw : s.workers[i]? = some w)
    (hl : w.isLive = true) : s.main = .waitDone := by
  by_contra hm
  exact inv.closed hm (inv.looping_of_live hw hl)

/-- A live worker moves on to an entry that publishes nothing and reports nothing. -/
theorem Inv.setWorker {tasks : List (ProducerFunc T E)} {s : State T E}
    (inv : Inv tasks s) {i : Nat} {w w' : Worker T E} (hw : s.workers[i]? = some w)
    (hl : w.isLive = true) (hv : w'.value = none) (hag : w'.agrees tasks[i]?)
    (hnf : ∀ v e, w' ≠ Worker.failed v e) : Inv tasks (s.setWorker i w') := by
  have hd := inv.looping_of_live hw hl
  have hwv : w.value = none := by cases w <;> simp_all [Worker.value, Worker.isLive]
  have hlt : i < s.workers.length := (List.getElem?_eq_some.1 hw).1
  refine ⟨?_, ?_, ?_, ?_, ?_, ?_, ?_, ?_, ?_, ?_, ?_, ?_⟩
  · simpa [State.setWorker] using inv.len
  · intro h; exact absurd hd h
  · exact inv.closed
  · exact inv.drained
  · exact inv.safe
  · simp only [State.setWorker]
    rw [filterMap_set_of_none Worker.value w' hv s.workers i w hw hwv]
    exact inv.arr
  · exact inv.ret
  · exact inv.err
  · exact inv.dret
  · intro j x hx
    simp only [State.setWorker, List.getElem?_set] at hx
    split at hx
    · rename_i hij
      subst hij
      simp [hlt] at hx
      subst hx
      exact hag
    · exact inv.agrees j x hx
  · intro hg
    refine ⟨?_, (inv.gerrNone hg).2⟩
    intro j v e hx
    simp only [State.setWorker, List.getElem?_set] at hx
    split at hx
    · simp [hlt] at hx
      exact hnf v e hx
    · exact (inv.gerrNone hg).1 j v e hx
  · intro e hg
    obtain ⟨j, v, hj⟩ := inv.gerrSome e hg
    refine ⟨j, v, ?_⟩
    simp only [State.setWorker, List.getElem?_set]
    have : i ≠ j := by
      rintro rfl
      rw [hw] at hj
      cases hj
      simp [Worker.isLive] at hl
    simp [this, hj]


theorem live_eq_zero_iff (s : State T E) :
    s.live = 0 ↔ ∀ (i : Nat) (w : Worker T E), s.workers[i]? = some w → w.isLive = false := by
  unfold State.live
  rw [List.countP_eq_zero]
  constructor
  · intro h i w hw
    have := h w (List.mem_iff_getElem?.2 ⟨i, hw⟩)
    simpa using this
  · intro h w hw
    obtain ⟨i, hi⟩ := List.mem_iff_getElem?.1 hw
    simp [h i w hi]

/-- Every move keeps the invariant. -/
theorem Inv.move {tasks : List (ProducerFunc T E)} {o : options} {s s' : State T E}
    {a : Action} (inv : Inv tasks s) (hm0 : ∀ x y, s.main ≠ .returned x y)
    (h : Move tasks o s a s') : Inv tasks s' := by
  cases h with
  | ctxCancel hc hp =>
    exact ⟨inv.len, inv.joined, inv.closed, inv.drained, inv.safe, inv.arr, inv.ret,
      inv.err, inv.dret, inv.agrees, inv.gerrNone, inv.gerrSome⟩
  | groupGo hd hl ha =>
    refine ⟨?_, ?_, inv.closed, inv.drained, inv.safe, ?_, inv.ret, inv.err, inv.dret,
      ?_, ?_, ?_⟩
    · simp only [List.length_append, List.length_singleton]; omega
    · intro h; exact absurd hd h
    · simpa [List.filterMap_append, Worker.value] using inv.arr
    · intro j x hx
      simp only [List.getElem?_append] at hx
      split at hx
      · exact inv.agrees j x hx
      · have : x = Worker.started := by
          rcases Nat.eq_zero_or_pos (j - s.workers.length) with h0 | h0
          · rw [h0] at hx; simpa using hx.symm
          · rw [List.getElem?_eq_none (by simp only [List.length_singleton]; omega)] at hx
            cases hx
        subst this
        trivial
    · intro hg
      refine ⟨?_, (inv.gerrNone hg).2⟩
      intro j v e hx
      simp only [List.getElem?_append] at hx
      split at hx
      · exact (inv.gerrNone hg).1 j v e hx
      · rcases Nat.eq_zero_or_pos (j - s.workers.length) with h0 | h0
        · rw [h0] at hx; simp at hx
        · rw [List.getElem?_eq_none (by simp only [List.length_singleton]; omega)] at hx
          cases hx
    · intro e hg
      obtain ⟨j, v, hj⟩ := inv.gerrSome e hg
      refine ⟨j, v, ?_⟩
      have hlt : j < s.workers.length := (List.getElem?_eq_some.1 hj).1
      simp only
      rw [List.getElem?_append_left hlt]
      exact hj
  | skip i hw hc =>
    exact inv.setWorker hw rfl rfl trivial (fun _ _ h => by cases h)
  | start i hw hc =>
    exact inv.setWorker hw rfl rfl trivial (fun _ _ h => by cases h)
  | taskOk i p r hw ht hr =>
    exact inv.setWorker hw rfl rfl ⟨p, _, ht, hr⟩ (fun _ _ h => by cases h)
  | taskErr i p v e hw ht hr =>
    exact inv.setWorker hw rfl rfl ⟨p, _, ht, hr⟩ (fun _ _ h => by cases h)
  | send i r hw hm =>
    have hd := inv.looping_of_live hw rfl
    have hlt : i < s.workers.length := (List.getElem?_eq_some.1 hw).1
    refine ⟨?_, ?_, ?_, inv.drained, inv.safe, ?_, ?_, inv.err, inv.dret, ?_, ?_, ?_⟩
    · simpa [State.setWorker] using inv.len
    · intro h; exact absurd hd h
    · exact inv.closed
    · simp only [State.setWorker]
      have h1 := filterMap_set_of_some Worker.value (Worker.succeeded r) r rfl
        s.workers i _ hw rfl
      exact ((List.perm_append_singleton r s.arr).trans (List.Perm.cons r inv.arr)).trans
        h1.symm
    · intro a e h
      simp only [State.setWorker] at h
      rw [hm] at h
      cases h
    · intro j x hx
      simp only [State.setWorker, List.getElem?_set] at hx
      split at hx
      · rename_i hij
        subst hij
        simp [hlt] at hx
        subst hx
        have hag := inv.agrees i _ hw
        exact hag
      · exact inv.agrees j x hx
    · intro hg
      refine ⟨?_, (inv.gerrNone hg).2⟩
      intro j v e hx
      simp only [State.setWorker, List.getElem?_set] at hx
      split at hx
      · simp [hlt] at hx
      · exact (inv.gerrNone hg).1 j v e hx
    · intro e hg
      obtain ⟨j, v, hj⟩ := inv.gerrSome e hg
      refine ⟨j, v, ?_⟩
      simp only [State.setWorker, List.getElem?_set]
      have : i ≠ j := by
        rintro rfl
        rw [hw] at hj
        cases hj
      simp [this, hj]
  | sendClosed i r hw hm =>
    have := inv.waitDone_of_live hw rfl
    rw [hm] at this
    cases this
  | failFirst i v e hw hg =>
    have hd := inv.looping_of_live hw rfl
    have hlt : i < s.workers.length := (List.getElem?_eq_some.1 hw).1
    refine ⟨?_, ?_, inv.closed, inv.drained, inv.safe, ?_, inv.ret, ?_, ?_, ?_, ?_, ?_⟩
    · simpa [State.setWorker] using inv.len
    · intro h; exact absurd hd h
    · simp only [State.setWorker]
      rw [filterMap_set_of_none Worker.value (Worker.failed v e) rfl s.workers i _ hw rfl]
      exact inv.arr
    · left
      rcases inv.err with h | h
      · exact h
      · simp only [State.setWorker]; rw [h, hg]
    · intro e0 h
      simp only [State.setWorker] at h
      rw [hd] at h
      cases h
    · intro j x hx
      simp only [State.setWorker, List.getElem?_set] at hx
      split at hx
      · rename_i hij
        subst hij
        simp [hlt] at hx
        subst hx
        have hag := inv.agrees i _ hw
        exact hag
      · exact inv.agrees j x hx
    · intro h
      cases h
    · intro e0 h
      simp only [State.setWorker] at h
      cases h
      refine ⟨i, v, ?_⟩
      simp [State.setWorker, hlt]
  | failLater i v e e0 hw hg =>
    have hd := inv.looping_of_live hw rfl
    have hlt : i < s.workers.length := (List.getElem?_eq_some.1 hw).1
    refine ⟨?_, ?_, inv.closed, inv.drained, inv.safe, ?_, inv.ret, inv.err, inv.dret,
      ?_, ?_, ?_⟩
    · simpa [State.setWorker] using inv.len
    · intro h; exact absurd hd h
    · simp only [State.setWorker]
      rw [filterMap_set_of_none Worker.value (Worker.failed v e) rfl s.workers i _ hw rfl]
      exact inv.arr
    · intro j x hx
      simp only [State.setWorker, List.getElem?_set] at hx
      split at hx
      · rename_i hij
        subst hij
        simp [hlt] at hx
        subst hx
        have hag := inv.agrees i _ hw
        exact hag
      · exact inv.agrees j x hx
    · intro h
      simp only [State.setWorker] at h
      rw [hg] at h
      cases h
    · intro e1 h
      obtain ⟨j, v1, hj⟩ := inv.gerrSome e1 h
      refine ⟨j, v1, ?_⟩
      simp only [State.setWorker, List.getElem?_set]
      have : i ≠ j := by
        rintro rfl
        rw [hw] at hj
        cases hj
      simp [this, hj]
  | groupWait hd hl h0 =>
    refine ⟨inv.len, ?_, ?_, inv.drained, inv.safe, inv.arr, inv.ret, inv.err, ?_,
      inv.agrees, ?_, inv.gerrSome⟩
    · intro _
      exact ⟨hl, (live_eq_zero_iff s).1 h0⟩
    · intro _ h
      cases h
    · intro e h
      cases h
      rfl
    · intro hg
      refine ⟨(inv.gerrNone hg).1, ?_⟩
      intro h
      cases h
  | errStore e hd =>
    refine ⟨inv.len, ?_, ?_, inv.drained, inv.safe, inv.arr, ?_, ?_, ?_,
      inv.agrees, ?_, inv.gerrSome⟩
    · intro _
      exact inv.joined (by rw [hd]; intro h; cases h)
    · intro _ h
      cases h
    · intro a e1 h
      exact absurd h (hm0 a e1)
    · right
      exact inv.dret e hd
    · intro e1 h
      cases h
    · intro hg
      refine ⟨(inv.gerrNone hg).1, ?_⟩
      intro h
      cases h
  | closeResults hm hd =>
    refine ⟨inv.len, inv.joined, fun _ => hd, ?_, inv.safe, inv.arr, ?_, inv.err, inv.dret,
      inv.agrees, inv.gerrNone, inv.gerrSome⟩
    · intro _ h
      cases h
    · intro a e h
      cases h
  | collectorExit hm hc =>
    refine ⟨inv.len, inv.joined, inv.closed, ?_, inv.safe, inv.arr, ?_, inv.err, inv.dret,
      inv.agrees, inv.gerrNone, inv.gerrSome⟩
    · intro _ h
      simp only at h
      rw [hm] at h
      cases h
    · intro a e h
      simp only at h
      rw [hm] at h
      cases h
  | gatherReturn hm hc =>
    refine ⟨inv.len, inv.joined, ?_, ?_, inv.safe, inv.arr, ?_, inv.err, inv.dret,
      inv.agrees, inv.gerrNone, inv.gerrSome⟩
    · intro _
      exact inv.closed (by rw [hm]; intro h; cases h)
    · intro _ h
      cases h
    · intro a e h
      cases h
      exact ⟨rfl, rfl, hc⟩


/-! ### Runs -/

/-- A scheduling decision either changes nothing or is a move from a state in
which Gather is still running. -/
theorem step_cases (tasks : List (ProducerFunc T E)) (o : options) (s : State T E)
    (a : Action) :
    step tasks o s a = s ∨
      (s.panicked = false ∧ (∀ x y, s.main ≠ .returned x y) ∧
        Move tasks o s a (step tasks o s a)) := by
  unfold step
  cases h : step? tasks o s a with
  | none => left; rfl
  | some s' => right; exact step?_sound h

theorem exec_cons (tasks : List (ProducerFunc T E)) (o : options) (s : State T E)
    (a : Action) (sched : List Action) :
    exec tasks o s (a :: sched) = exec tasks o (step tasks o s a) sched := rfl

theorem exec_append (tasks : List (ProducerFunc T E)) (o : options) (s : State T E)
    (l1 l2 : List Action) :
    exec tasks o s (l1 ++ l2) = exec tasks o (exec tasks o s l1) l2 := by
  simp [exec, List.foldl_append]

/-- Induction over a run: a property of the start state that every move
keeps, given the invariant, holds after any schedule. -/
theorem exec_induction {tasks : List (ProducerFunc T E)} {o : options}
    (P : State T E → Prop)
    (hstep : ∀ (s s' : State T E) (a : Action), Inv tasks s → P s →
      (∀ x y, s.main ≠ .returned x y) → Move tasks o s a s' → P s') :
    ∀ (sched : List Action) (s : State T E), Inv tasks s → P s →
      Inv tasks (exec tasks o s sched) ∧ P (exec tasks o s sched)
  | [], s, inv, hp => ⟨inv, hp⟩
  | a :: sched, s, inv, hp => by
      rw [exec_cons]
      rcases step_cases tasks o s a with h | ⟨_, hm, hmv⟩
      · rw [h]
        exact exec_induction P hstep sched s inv hp
      · exact exec_induction P hstep sched _ (inv.move hm hmv) (hstep _ _ a inv hp hm hmv)

theorem inv_exec {tasks : List (ProducerFunc T E)} {o : options} {s : State T E}
    (inv : Inv tasks s) (sched : List Action) : Inv tasks (exec tasks o s sched) :=
  (exec_induction (fun _ => True) (fun _ _ _ _ _ _ _ => trivial) sched s inv trivial).1

theorem inv_gatherState (numCPU : Int) (tasks : List (ProducerFunc T E))
    (opts : List optionsFunc) (sched : List Action) :
    Inv tasks (gatherState numCPU tasks opts sched) :=
  inv_exec (Inv.init tasks _) sched

/-- Nothing moves once Gather has returned. -/
theorem exec_returned {tasks : List (ProducerFunc T E)} {o : options} {s : State T E}
    {x : List T} {y : Option E} (h : s.main = .returned x y) :
    ∀ sched : List Action, exec tasks o s sched = s
  | [] => rfl
  | a :: sched => by
      rw [exec_cons]
      rcases step_cases tasks o s a with h1 | ⟨_, hm, _⟩
      · rw [h1]; exact exec_returned h sched
      · exact absurd h (hm x y)


/-! ### Termination and progress -/

theorem sum_map_set {α : Type} (f : α → Nat) (b : α) :
    ∀ (l : List α) (i : Nat) (a : α), l[i]? = some a →
      ((l.set i b).map f).sum + f a = (l.map f).sum + f b
  | [], i, a, h => by simp at h
  | x :: l, 0, a, h => by
      simp at h
      subst h
      simp only [List.set_cons_zero, List.map_cons, List.sum_cons]
      omega
  | x :: l, i + 1, a, h => by
      simp at h
      have ih := sum_map_set f b l i a h
      simp only [List.set_cons_succ, List.map_cons, List.sum_cons]
      omega

theorem fuel_setWorker (tasks : List (ProducerFunc T E)) (o : options) {s : State T E}
    (w' : Worker T E) {i : Nat} {w : Worker T E} (hw : s.workers[i]? = some w)
    (h : w'.fuel < w.fuel) :
    (s.setWorker i w').fuel tasks o < s.fuel tasks o := by
  have := sum_map_set Worker.fuel w' s.workers i w hw
  simp only [State.fuel, State.setWorker, List.length_set]
  omega

/-- Every move lowers the fuel: no run of Gather goes on for ever. -/
theorem Move.fuel_lt {tasks : List (ProducerFunc T E)} {o : options} {s s' : State T E}
    {a : Action} (h : Move tasks o s a s') (hp : s.panicked = false) :
    s'.fuel tasks o < s.fuel tasks o := by
  cases h with
  | ctxCancel hc hp1 => simp [State.fuel, hc, hp1]
  | groupGo hd hl ha =>
    simp only [State.fuel, List.length_append, List.length_singleton, List.map_append,
      List.sum_append, List.map_cons, List.map_nil, List.sum_cons, List.sum_nil, Worker.fuel]
    omega
  | skip i hw hc => exact fuel_setWorker tasks o _ hw (by simp [Worker.fuel])
  | start i hw hc => exact fuel_setWorker tasks o _ hw (by simp [Worker.fuel])
  | taskOk i p r hw ht hr => exact fuel_setWorker tasks o _ hw (by simp [Worker.fuel])
  | taskErr i p v e hw ht hr => exact fuel_setWorker tasks o _ hw (by simp [Worker.fuel])
  | send i r hw hm =>
    have := fuel_setWorker tasks o (Worker.succeeded r) hw
      (by simp [Worker.fuel])
    simpa [State.fuel, State.setWorker] using this
  | sendClosed i r hw hm => simp [State.fuel, hp]
  | failFirst i v e hw hg =>
    have := fuel_setWorker tasks o (Worker.failed v e) hw
      (by simp [Worker.fuel])
    simpa [State.fuel, State.setWorker] using this
  | failLater i v e e0 hw hg => exact fuel_setWorker tasks o _ hw (by simp [Worker.fuel])
  | groupWait hd hl h0 => simp [State.fuel, hd, Dispatcher.fuel]
  | errStore e hd => simp [State.fuel, hd, Dispatcher.fuel]
  | closeResults hm hd => simp [State.fuel, hm, Main.fuel]
  | collectorExit hm hc => simp [State.fuel, hc]
  | gatherReturn hm hc => simp [State.fuel, hm, Main.fuel]


/-- Deadlock freedom: as long as Gather has not returned, some goroutine can
move, whatever the owner of the context does.  The cap must not be zero
when there is a task (`g.SetLimit(0)` admits nothing). -/
theorem Inv.progress {tasks : List (ProducerFunc T E)} {o : options} {s : State T E}
    (inv : Inv tasks s) (hcap : tasks = [] ∨ o.maxProcs ≠ 0)
    (hm : ∀ x y, s.main ≠ .returned x y) :
    ∃ a s', a ≠ Action.ctxCancel ∧ Move tasks o s a s' := by
  by_cases hd : s.dispatcher = .looping
  · by_cases h0 : s.live = 0
    · by_cases hl : s.workers.length < tasks.length
      · refine ⟨.groupGo, _, by simp, Move.groupGo hd hl ?_⟩
        have hne : o.maxProcs ≠ 0 := by
          rcases hcap with h | h
          · subst h; simp at hl
          · exact h
        simp only [admits, h0, Bool.or_eq_true, decide_eq_true_eq]
        have : (((0 : Nat) : Int)) = 0 := rfl
        omega
      · have hlen : s.workers.length = tasks.length := by
          have := inv.len
          omega
        exact ⟨.groupWait, _, by simp, Move.groupWait hd hlen h0⟩
    · rw [live_eq_zero_iff] at h0
      push_neg at h0
      obtain ⟨i, w, hw, hl⟩ := h0
      have hlive : w.isLive = true := by simpa using hl
      cases w with
      | started =>
        cases hc : s.ctxDone with
        | true => exact ⟨.workerSelect i, _, by simp, Move.skip i hw hc⟩
        | false => exact ⟨.workerSelect i, _, by simp, Move.start i hw hc⟩
      | running =>
        have hlt : i < tasks.length :=
          lt_of_lt_of_le (List.getElem?_eq_some.1 hw).1 inv.len
        have ht : tasks[i]? = some tasks[i] := List.getElem?_eq_getElem hlt
        cases hr : tasks[i] s.ctxDone with
        | mk r e =>
          cases e with
          | none => exact ⟨.taskReturn i, _, by simp, Move.taskOk i _ r hw ht hr⟩
          | some e => exact ⟨.taskReturn i, _, by simp, Move.taskErr i _ r e hw ht hr⟩
      | sending r =>
        exact ⟨.resultSend i, _, by simp, Move.send i r hw (inv.waitDone_of_live hw rfl)⟩
      | failing v e =>
        cases hg : s.gerr with
        | none => exact ⟨.workerFail i, _, by simp, Move.failFirst i v e hw hg⟩
        | some e0 => exact ⟨.workerFail i, _, by simp, Move.failLater i v e e0 hw hg⟩
      | skipped => simp [Worker.isLive] at hlive
      | succeeded r => simp [Worker.isLive] at hlive
      | failed v e => simp [Worker.isLive] at hlive
  · cases hmain : s.main with
    | waitDone => exact ⟨.closeResults, _, by simp, Move.closeResults hmain hd⟩
    | waitCollector =>
      cases hc : s.collecting with
      | true => exact ⟨.collectorExit, _, by simp, Move.collectorExit hmain hc⟩
      | false => exact ⟨.gatherReturn, _, by simp, Move.gatherReturn hmain hc⟩
    | returned x y => exact absurd hmain (hm x y)

/-- From every reachable state some continuation, in which the context is
not cancelled from outside, makes Gather return. -/
theorem exec_reaches_return {tasks : List (ProducerFunc T E)} {o : options}
    (hcap : tasks = [] ∨ o.maxProcs ≠ 0) :
    ∀ (n : Nat) (s : State T E), Inv tasks s → s.fuel tasks o ≤ n →
      ∃ more : List Action, Action.ctxCancel ∉ more ∧
        ∃ x y, (exec tasks o s more).main = .returned x y
  | 0, s, inv, hn => by
      have hp := inv.safe
      simp [State.fuel, hp] at hn
  | n + 1, s, inv, hn => by
      by_cases hm : ∃ x y, s.main = .returned x y
      · exact ⟨[], by simp, hm⟩
      · have hm1 : ∀ x y, s.main ≠ .returned x y := by
          intro x y h
          exact hm ⟨x, y, h⟩
        obtain ⟨a, s', ha, hmv⟩ := inv.progress hcap hm1
        have hlt := hmv.fuel_lt inv.safe
        obtain ⟨more, hc, hret⟩ :=
          exec_reaches_return hcap n s' (inv.move hm1 hmv) (by omega)
        refine ⟨a :: more, ?_, ?_⟩
        · simp only [List.mem_cons, not_or]
          exact ⟨fun h => ha h.symm, hc⟩
        · rw [exec_cons]
          have : step tasks o s a = s' := by
            unfold step
            rw [step?_complete inv.safe hm1 hmv]
            rfl
          rw [this]
          exact hret

/-! ### options.go -/

theorem newOptions_snoc (numCPU : Int) (fs : List optionsFunc) (f : optionsFunc) :
    newOptions numCPU (fs ++ [f]) = f (newOptions numCPU fs) := by
  simp [newOptions, List.foldl_append]

theorem newOptions_eq_last (numCPU : Int) (opts : List Opt) :
    newOptions numCPU (opts.map Opt.toFunc) =
      { maxProcs := lastPositiveMaxProcs numCPU opts, ctx := lastContext opts } := by
  induction opts using List.reverseRecOn with
  | nil => rfl
  | append_singleton l x ih =>
    rw [List.map_append, List.map_singleton, newOptions_snoc, ih]
    cases x with
    | maxProcs n =>
      by_cases hn : n > 0
      · simp [Opt.toFunc, WithMaxProcs, hn, lastPositiveMaxProcs, lastContext,
          List.filterMap_append, Opt.positiveArg, Opt.contextArg]
      · simp [Opt.toFunc, WithMaxProcs, hn, lastPositiveMaxProcs, lastContext,
          List.filterMap_append, Opt.positiveArg, Opt.contextArg]
    | context c =>
      simp [Opt.toFunc, WithContext, lastPositiveMaxProcs, lastContext,
        List.filterMap_append, Opt.positiveArg, Opt.contextArg]

theorem lastPositiveMaxProcs_pos (dflt : Int) (h : 0 < dflt) (opts : List Opt) :
    0 < lastPositiveMaxProcs dflt opts := by
  unfold lastPositiveMaxProcs
  cases hl : (opts.filterMap Opt.positiveArg).getLast? with
  | none => simpa using h
  | some n =>
    have hmem : n ∈ opts.filterMap Opt.positiveArg := List.mem_of_getLast?_eq_some hl
    rw [List.mem_filterMap] at hmem
    obtain ⟨x, _, hx⟩ := hmem
    cases x with
    | maxProcs m =>
      simp only [Opt.positiveArg] at hx
      split at hx
      · cases hx; simpa
      · cases hx
    | context c => simp [Opt.positiveArg] at hx

theorem newOptions_maxProcs_ne_zero (numCPU : Int) (h : 1 ≤ numCPU) (opts : List Opt) :
    (newOptions numCPU (opts.map Opt.toFunc)).maxProcs ≠ 0 := by
  rw [newOptions_eq_last]
  have := lastPositiveMaxProcs_pos numCPU (by omega) opts
  simp only
  omega

/-- C6: for every configuration `o` and integer `n`, the mutator
`WithMaxProcs(n)` sets `maxProcs` to `n` when `n > 0` and leaves it as it is
when `n <= 0`, the context field is untouched either way, and resolving
`WithMaxProcs(0)` or `WithMaxProcs(-5)` alone gives the processor-count
default. -/
theorem WithMaxProcs_spec (o : options) (n numCPU : Int) :
    (WithMaxProcs n o).maxProcs = (if n > 0 then n else o.maxProcs) ∧
    (WithMaxProcs n o).ctx = o.ctx ∧
    (newOptions numCPU [WithMaxProcs 0]).maxProcs = numCPU ∧
    (newOptions numCPU [WithMaxProcs (-5)]).maxProcs = numCPU ∧
    (newOptions numCPU [WithMaxProcs 0]).ctx = Context.background ∧
    (newOptions numCPU [WithMaxProcs (-5)]).ctx = Context.background := by
  refine ⟨?_, ?_, ?_, ?_, ?_, ?_⟩
  · unfold WithMaxProcs; split <;> rfl
  · unfold WithMaxProcs; split <;> rfl
  · simp [newOptions, WithMaxProcs]
  · simp [newOptions, WithMaxProcs]
  · simp [newOptions, WithMaxProcs]
  · simp [newOptions, WithMaxProcs]

/-- C7: with a processor count of at least one, the configuration resolved
from any sequence of `WithMaxProcs(n)` (any integer `n`) and `WithContext(c)`
options has `maxProcs > 0`. -/
theorem newOptions_maxProcs_pos (numCPU : Int) (hcpu : 1 ≤ numCPU) (opts : List Opt) :
    0 < (newOptions numCPU (opts.map Opt.toFunc)).maxProcs := by
  rw [newOptions_eq_last]
  exact lastPositiveMaxProcs_pos numCPU (by omega) opts

theorem newOptions_maxProcs_pos_witness :
    (1 : Int) ≤ 8 ∧
    0 < (newOptions 8 ([Opt.maxProcs 0, Opt.context (Context.live 1), Opt.maxProcs (-5),
      Opt.maxProcs 3, Opt.maxProcs (-1)].map Opt.toFunc)).maxProcs :=
  ⟨by decide, newOptions_maxProcs_pos 8 (by decide) _⟩

/-- C8: `newOptions` is the left fold of the mutators, in sequence order,
over the default `{processor count, Background}`: the empty sequence gives
the default, a sequence extended by one mutator gives that mutator applied
to the resolution of the sequence, and for every sequence of the two
exported options the resolved context is the argument of the last
`WithContext` (Background if none) and the resolved cap is the `n` of the
last `WithMaxProcs(n)` with `n > 0` (the default if none).  Being a total
function, resolution never fails. -/
theorem newOptions_resolves (numCPU : Int) (opts : List Opt) :
    newOptions numCPU [] = { maxProcs := numCPU, ctx := Context.background } ∧
    (∀ (fs : List optionsFunc) (f : optionsFunc),
      newOptions numCPU (fs ++ [f]) = f (newOptions numCPU fs)) ∧
    (newOptions numCPU (opts.map Opt.toFunc)).ctx = lastContext opts ∧
    (newOptions numCPU (opts.map Opt.toFunc)).maxProcs = lastPositiveMaxProcs numCPU opts := by
  refine ⟨rfl, newOptions_snoc numCPU, ?_, ?_⟩
  · rw [newOptions_eq_last]
  · rw [newOptions_eq_last]

/-! ### The concurrency cap -/

theorem live_setWorker_le {s : State T E} (w' : Worker T E) {i : Nat} {w : Worker T E}
    (hw : s.workers[i]? = some w) (hl : w.isLive = true) :
    (s.setWorker i w').live ≤ s.live := by
  obtain ⟨hlt, hget⟩ := List.getElem?_eq_some.1 hw
  simp only [State.live, State.setWorker]
  rw [List.countP_set _ _ _ _ hlt, hget, if_pos hl]
  have hpos : 0 < List.countP Worker.isLive s.workers :=
    List.countP_pos_iff.2 ⟨w, List.mem_iff_getElem?.2 ⟨i, hw⟩, hl⟩
  split <;> omega

/-- No move takes the number of semaphore tokens in use above a cap that is
not negative. -/
theorem Move.live_le {tasks : List (ProducerFunc T E)} {o : options} {s s' : State T E}
    {a : Action} (h : Move tasks o s a s') (hcap : 0 ≤ o.maxProcs)
    (hs : (s.live : Int) ≤ o.maxProcs) : (s'.live : Int) ≤ o.maxProcs := by
  have key : ∀ (w' : Worker T E) {i : Nat} {w : Worker T E}, s.workers[i]? = some w →
      w.isLive = true → ((s.setWorker i w').live : Int) ≤ o.maxProcs := by
    intro w' i w hw hl
    have := live_setWorker_le w' hw hl
    omega
  cases h with
  | ctxCancel hc hp => exact hs
  | groupGo hd hl ha =>
    simp only [admits, Bool.or_eq_true, decide_eq_true_eq] at ha
    simp only [State.live, List.countP_append, List.countP_cons, List.countP_nil,
      Worker.isLive] at ha ⊢
    push_cast
    omega
  | skip i hw hc => exact key _ hw rfl
  | start i hw hc => exact key _ hw rfl
  | taskOk i p r hw ht hr => exact key _ hw rfl
  | taskErr i p v e hw ht hr => exact key _ hw rfl
  | send i r hw hm => exact key (Worker.succeeded r) hw rfl
  | sendClosed i r hw hm => exact hs
  | failFirst i v e hw hg => exact key (Worker.failed v e) hw rfl
  | failLater i v e e0 hw hg => exact key _ hw rfl
  | groupWait hd hl h0 => exact hs
  | errStore e hd => exact hs
  | closeResults hm hd => exact hs
  | collectorExit hm hc => exact hs
  | gatherReturn hm hc => exact hs

theorem exec_live_le (tasks : List (ProducerFunc T E)) {o : options}
    (hcap : 0 ≤ o.maxProcs) (sched : List Action) :
    ((exec tasks o (initState o) sched).live : Int) ≤ o.maxProcs :=
  (exec_induction (fun s => (s.live : Int) ≤ o.maxProcs)
    (fun _ _ _ _ hp _ hmv => hmv.live_le hcap hp) sched (initState o)
    (Inv.init tasks o) (by simpa [initState, State.live] using hcap)).2

theorem active_le_live (s : State T E) : s.active ≤ s.live := by
  unfold State.active State.live
  apply List.countP_mono_left
  intro w _ h
  cases w <;> simp_all [Worker.isRunning, Worker.isLive]

/-- The call `g.Go` does not get past the semaphore while it is full. -/
theorem step_groupGo_full {tasks : List (ProducerFunc T E)} {o : options} {s : State T E}
    (h : (s.live : Int) = o.maxProcs) : step tasks o s .groupGo = s := by
  rcases step_cases tasks o s .groupGo with h1 | ⟨_, _, hmv⟩
  · exact h1
  · generalize step tasks o s .groupGo = s' at hmv
    cases hmv with
    | groupGo hd hl ha =>
      simp only [admits, Bool.or_eq_true, decide_eq_true_eq] at ha
      omega

/-- C9: in every state a call of Gather reaches (processor count at least
one, any producers, any options, any schedule) the number of producer bodies
executing is at most the resolved cap `maxProcs`; and whenever the number
of workers holding a slot equals the cap, the dispatcher's next `g.Go` does
not move, so a further producer waits until a slot is given back. -/
theorem Gather_concurrency_bound (numCPU : Int) (hcpu : 1 ≤ numCPU)
    (tasks : List (ProducerFunc T E)) (opts : List Opt) (sched : List Action) :
    ((gatherState numCPU tasks (opts.map Opt.toFunc) sched).active : Int) ≤
        (newOptions numCPU (opts.map Opt.toFunc)).maxProcs ∧
    (((gatherState numCPU tasks (opts.map Opt.toFunc) sched).live : Int) =
        (newOptions numCPU (opts.map Opt.toFunc)).maxProcs →
      step tasks (newOptions numCPU (opts.map Opt.toFunc))
        (gatherState numCPU tasks (opts.map Opt.toFunc) sched) .groupGo =
        gatherState numCPU tasks (opts.map Opt.toFunc) sched) := by
  have hpos : 0 < (newOptions numCPU (opts.map Opt.toFunc)).maxProcs := by
    rw [newOptions_eq_last]
    exact lastPositiveMaxProcs_pos numCPU (by omega) opts
  refine ⟨?_, step_groupGo_full⟩
  have h1 := exec_live_le tasks (le_of_lt hpos) sched
  have h2 := active_le_live (gatherState numCPU tasks (opts.map Opt.toFunc) sched)
  unfold gatherState at h2 ⊢
  omega


theorem Gather_concurrency_bound_witness :
    (1 : Int) ≤ 8 ∧
    ((gatherState 8 letterProducers ([Opt.maxProcs 4].map Opt.toFunc)
        [.groupGo, .groupGo, .groupGo, .groupGo, .groupGo, .workerSelect 0, .workerSelect 1,
         .workerSelect 2, .workerSelect 3, .groupGo]).active : Int) ≤
      (newOptions 8 ([Opt.maxProcs 4].map Opt.toFunc)).maxProcs ∧
    (gatherState 8 letterProducers ([Opt.maxProcs 4].map Opt.toFunc)
        [.groupGo, .groupGo, .groupGo, .groupGo, .groupGo, .workerSelect 0, .workerSelect 1,
         .workerSelect 2, .workerSelect 3, .groupGo]).active = 4 ∧
    (newOptions 8 ([Opt.maxProcs 4].map Opt.toFunc)).maxProcs = 4 :=
  ⟨by decide,
   (Gather_concurrency_bound 8 (by decide) letterProducers [Opt.maxProcs 4]
      [.groupGo, .groupGo, .groupGo, .groupGo, .groupGo, .workerSelect 0, .workerSelect 1,
       .workerSelect 2, .workerSelect 3, .groupGo]).1,
   by decide, by decide⟩

/-! ### What Gather returns -/

/-- Gather returns on some continuation of every schedule, without the
context being cancelled from outside on the way. -/
theorem Gather_returns (numCPU : Int) (tasks : List (ProducerFunc T E))
    (opts : List optionsFunc)
    (hcap : tasks = [] ∨ (newOptions numCPU opts).maxProcs ≠ 0) (sched : List Action) :
    ∃ more : List Action, Action.ctxCancel ∉ more ∧
      ∃ x y, Gather numCPU tasks opts (sched ++ more) = some (x, y) := by
  obtain ⟨more, hc, x, y, h⟩ := exec_reaches_return hcap _ _
    (inv_gatherState numCPU tasks opts sched) (le_refl _)
  refine ⟨more, hc, x, y, ?_⟩
  unfold Gather gatherState
  rw [exec_append]
  unfold gatherState at h
  rw [h]

/-- What a returning call hands back is `arr` and `err` of the state reached. -/
theorem Gather_eq_some {numCPU : Int} {tasks : List (ProducerFunc T E)}
    {opts : List optionsFunc} {sched : List Action} {x : List T} {y : Option E}
    (h : Gather numCPU tasks opts sched = some (x, y)) :
    (gatherState numCPU tasks opts sched).main = .returned x y ∧
    x = (gatherState numCPU tasks opts sched).arr ∧
    y = (gatherState numCPU tasks opts sched).err := by
  unfold Gather at h
  split at h
  · rename_i a e hm
    cases h
    have := (inv_gatherState numCPU tasks opts sched).ret _ _ hm
    exact ⟨hm, this.1, this.2.1⟩
  · cases h

/-- Extending a schedule on which Gather has returned changes nothing. -/
theorem Gather_append {numCPU : Int} {tasks : List (ProducerFunc T E)}
    {opts : List optionsFunc} {sched : List Action} {r : List T × Option E}
    (h : Gather numCPU tasks opts sched = some r) (more : List Action) :
    Gather numCPU tasks opts (sched ++ more) = some r := by
  obtain ⟨x, y⟩ := r
  have hm := (Gather_eq_some h).1
  unfold Gather gatherState at h ⊢
  unfold gatherState at hm
  rw [exec_append, exec_returned hm]
  exact h

theorem exec_empty_tasks {o : options} (sched : List Action) :
    (exec ([] : List (ProducerFunc T E)) o (initState o) sched).workers = [] ∧
    (exec ([] : List (ProducerFunc T E)) o (initState o) sched).arr = [] ∧
    (exec ([] : List (ProducerFunc T E)) o (initState o) sched).gerr = none ∧
    (exec ([] : List (ProducerFunc T E)) o (initState o) sched).err = none := by
  refine (exec_induction
    (fun s => s.workers = [] ∧ s.arr = [] ∧ s.gerr = none ∧ s.err = none) ?_ sched
    (initState o) (Inv.init _ o) ⟨rfl, rfl, rfl, rfl⟩).2
  intro s s' a inv hp _ hmv
  obtain ⟨hw, ha, hg, he⟩ := hp
  have nw : ∀ (i : Nat) (w : Worker T E), s.workers[i]? = some w → False := by
    intro i w h
    rw [hw] at h
    simp at h
  cases hmv with
  | ctxCancel hc hp => exact ⟨hw, ha, hg, he⟩
  | groupGo hd hl ha => simp at hl
  | skip i hw1 hc => exact (nw _ _ hw1).elim
  | start i hw1 hc => exact (nw _ _ hw1).elim
  | taskOk i p r hw1 ht hr => exact (nw _ _ hw1).elim
  | taskErr i p v e hw1 ht hr => exact (nw _ _ hw1).elim
  | send i r hw1 hm => exact (nw _ _ hw1).elim
  | sendClosed i r hw1 hm => exact (nw _ _ hw1).elim
  | failFirst i v e hw1 hg1 => exact (nw _ _ hw1).elim
  | failLater i v e e0 hw1 hg1 => exact (nw _ _ hw1).elim
  | groupWait hd hl h0 => exact ⟨hw, ha, hg, he⟩
  | errStore e hd =>
    refine ⟨hw, ha, hg, ?_⟩
    have := inv.dret e hd
    simp only
    rw [this, hg]
  | closeResults hm hd => exact ⟨hw, ha, hg, he⟩
  | collectorExit hm hc => exact ⟨hw, ha, hg, he⟩
  | gatherReturn hm hc => exact ⟨hw, ha, hg, he⟩

/-- C4: for the empty producer list and every option list (any mutators, any
processor count), under every schedule no worker is ever started, a call
that has returned has returned the empty slice and the nil error, and every
schedule has a continuation on which the call does return them. -/
theorem Gather_empty (numCPU : Int) (opts : List optionsFunc) (sched : List Action) :
    (gatherState numCPU ([] : List (ProducerFunc T E)) opts sched).workers = [] ∧
    (Gather numCPU ([] : List (ProducerFunc T E)) opts sched = none ∨
      Gather numCPU ([] : List (ProducerFunc T E)) opts sched = some ([], none)) ∧
    (∃ more : List Action, Action.ctxCancel ∉ more ∧
      Gather numCPU ([] : List (ProducerFunc T E)) opts (sched ++ more) = some ([], none)) := by
  have key : ∀ (sc : List Action) (x : List T) (y : Option E),
      Gather numCPU ([] : List (ProducerFunc T E)) opts sc = some (x, y) →
        x = [] ∧ y = none := by
    intro sc x y h
    obtain ⟨_, hx, hy⟩ := Gather_eq_some h
    have he := exec_empty_tasks (T := T) (E := E) (o := newOptions numCPU opts) sc
    unfold gatherState at hx hy
    rw [hx, hy]
    exact ⟨he.2.1, he.2.2.2⟩
  refine ⟨(exec_empty_tasks sched).1, ?_, ?_⟩
  · cases h : Gather numCPU ([] : List (ProducerFunc T E)) opts sched with
    | none => left; rfl
    | some r =>
      right
      obtain ⟨x, y⟩ := r
      obtain ⟨hx, hy⟩ := key sched x y h
      rw [hx, hy]
  · obtain ⟨more, hc, x, y, h⟩ :=
      Gather_returns numCPU ([] : List (ProducerFunc T E)) opts (Or.inl rfl) sched
    obtain ⟨hx, hy⟩ := key _ x y h
    exact ⟨more, hc, by rw [h, hx, hy]⟩

/-- In a state where `dispatch` has returned, every worker entry is final
and states the outcome of its task. -/
theorem Inv.outcomes {tasks : List (ProducerFunc T E)} {s : State T E} (inv : Inv tasks s)
    (hd : s.dispatcher ≠ .looping) (i : Nat) (w : Worker T E)
    (hw : s.workers[i]? = some w) : w.outcomeOf tasks[i]? := by
  have hl := (inv.joined hd).2 i w hw
  have ha := inv.agrees i w hw
  cases w with
  | started => simp [Worker.isLive] at hl
  | running => simp [Worker.isLive] at hl
  | sending r => simp [Worker.isLive] at hl
  | failing v e => simp [Worker.isLive] at hl
  | skipped => trivial
  | succeeded r => exact ha
  | failed v e => exact ha

/-! ### The fate of every worker -/

theorem Worker.evolves_refl (w : Worker T E) : w.evolves w := by
  cases w <;> simp [Worker.evolves]

theorem Worker.evolves_trans {w1 w2 w3 : Worker T E} (h12 : w1.evolves w2)
    (h23 : w2.evolves w3) : w1.evolves w3 := by
  cases w1 <;> cases w2 <;> simp_all [Worker.evolves] <;>
    rcases h23 with h | h <;> subst h <;> simp

theorem evolves_set {ws : List (Worker T E)} {j : Nat} {old new : Worker T E}
    (hj : ws[j]? = some old) (hev : old.evolves new) {i : Nat} {w : Worker T E}
    (hw : ws[i]? = some w) :
    ∃ w', (ws.set j new)[i]? = some w' ∧ w.evolves w' := by
  have hlt : j < ws.length := (List.getElem?_eq_some.1 hj).1
  by_cases hij : j = i
  · subst hij
    rw [hj] at hw
    cases hw
    exact ⟨new, by simp [hlt], hev⟩
  · exact ⟨w, by rw [List.getElem?_set_ne hij]; exact hw, w.evolves_refl⟩

/-- One move changes the entry of a worker only along `Worker.evolves`. -/
theorem Move.evolves {tasks : List (ProducerFunc T E)} {o : options} {s s' : State T E}
    {a : Action} (h : Move tasks o s a s') {i : Nat} {w : Worker T E}
    (hw : s.workers[i]? = some w) :
    ∃ w', s'.workers[i]? = some w' ∧ w.evolves w' := by
  have same : ∃ w', s.workers[i]? = some w' ∧ w.evolves w' := ⟨w, hw, w.evolves_refl⟩
  cases h with
  | ctxCancel hc hp => exact same
  | groupGo hd hl ha =>
    refine ⟨w, ?_, w.evolves_refl⟩
    simp only
    rw [List.getElem?_append_left (List.getElem?_eq_some.1 hw).1]
    exact hw
  | skip j hj hc => exact evolves_set hj trivial hw
  | start j hj hc => exact evolves_set hj trivial hw
  | taskOk j p r hj ht hr => exact evolves_set hj (by simp [Worker.evolves]) hw
  | taskErr j p v e hj ht hr => exact evolves_set hj (by simp [Worker.evolves]) hw
  | send j r hj hm => exact evolves_set hj (Or.inr rfl) hw
  | sendClosed j r hj hm => exact same
  | failFirst j v e hj hg => exact evolves_set hj (Or.inr rfl) hw
  | failLater j v e e0 hj hg => exact evolves_set hj (Or.inr rfl) hw
  | groupWait hd hl h0 => exact same
  | errStore e hd => exact same
  | closeResults hm hd => exact same
  | collectorExit hm hc => exact same
  | gatherReturn hm hc => exact same

theorem exec_evolves {tasks : List (ProducerFunc T E)} {o : options} :
    ∀ (post : List Action) (s : State T E) {i : Nat} {w : Worker T E},
      s.workers[i]? = some w →
      ∃ w', (exec tasks o s post).workers[i]? = some w' ∧ w.evolves w'
  | [], s, i, w, hw => ⟨w, hw, w.evolves_refl⟩
  | a :: post, s, i, w, hw => by
      rw [exec_cons]
      rcases step_cases tasks o s a with h1 | ⟨_, _, hmv⟩
      · rw [h1]
        exact exec_evolves post s hw
      · obtain ⟨w1, hw1, h1⟩ := hmv.evolves hw
        obtain ⟨w2, hw2, h2⟩ := exec_evolves post _ hw1
        exact ⟨w2, hw2, Worker.evolves_trans h1 h2⟩

/-- The entry a worker has at some point of a run on which Gather returns
evolves into the final entry it has at the return. -/
theorem Gather_entry_evolves {numCPU : Int} {tasks : List (ProducerFunc T E)}
    {opts : List optionsFunc} {pre post : List Action} {arr : List T} {err : Option E}
    (h : Gather numCPU tasks opts (pre ++ post) = some (arr, err))
    {i : Nat} {w : Worker T E}
    (hw : (gatherState numCPU tasks opts pre).workers[i]? = some w) :
    ∃ w', (gatherState numCPU tasks opts (pre ++ post)).workers[i]? = some w' ∧
      w.evolves w' ∧ w'.isLive = false := by
  have inv := inv_gatherState numCPU tasks opts (pre ++ post)
  obtain ⟨hm, _, _⟩ := Gather_eq_some h
  have hd : (gatherState numCPU tasks opts (pre ++ post)).dispatcher ≠ .looping :=
    inv.closed (by rw [hm]; intro h; cases h)
  have hex := @exec_evolves T E tasks (newOptions numCPU opts) post _ i w hw
  obtain ⟨w', hw', hev⟩ := hex
  have hw2 : (gatherState numCPU tasks opts (pre ++ post)).workers[i]? = some w' := by
    unfold gatherState
    rw [exec_append]
    exact hw'
  exact ⟨w', hw2, hev, (inv.joined hd).2 i w' hw2⟩

/-- In a reachable state the move `taskReturn` of a running worker records
what its producer returns for the present state of the group context. -/
theorem step_taskReturn {tasks : List (ProducerFunc T E)} {o : options} {s : State T E}
    (inv : Inv tasks s) {i : Nat} {p : ProducerFunc T E}
    (hw : s.workers[i]? = some .running) (ht : tasks[i]? = some p) :
    step tasks o s (.taskReturn i) =
      s.setWorker i (match p s.ctxDone with
        | (r, none) => Worker.sending r
        | (v, some e) => Worker.failing v e) := by
  have hm := inv.waitDone_of_live hw rfl
  have hnr : ∀ x y, s.main ≠ .returned x y := by
    rw [hm]; intro x y h; cases h
  unfold step
  rcases hp : p s.ctxDone with ⟨r, _ | e⟩
  · rw [step?_complete inv.safe hnr (Move.taskOk i p r hw ht hp)]
    rfl
  · rw [step?_complete inv.safe hnr (Move.taskErr i p r e hw ht hp)]
    rfl

theorem gatherState_snoc (numCPU : Int) (tasks : List (ProducerFunc T E))
    (opts : List optionsFunc) (pre : List Action) (a : Action) :
    gatherState numCPU tasks opts (pre ++ [a]) =
      step tasks (newOptions numCPU opts) (gatherState numCPU tasks opts pre) a := by
  unfold gatherState
  rw [exec_append]
  rfl

/-- A value held for sending at some point of a returning run has been
published by the end of it. -/
theorem Gather_sending_published {numCPU : Int} {tasks : List (ProducerFunc T E)}
    {opts : List optionsFunc} {pre post : List Action} {arr : List T} {err : Option E}
    (h : Gather numCPU tasks opts (pre ++ post) = some (arr, err))
    {i : Nat} {r : T}
    (hw : (gatherState numCPU tasks opts pre).workers[i]? = some (.sending r)) :
    (gatherState numCPU tasks opts (pre ++ post)).workers[i]? = some (.succeeded r) ∧
      r ∈ arr := by
  obtain ⟨w', hw', hev, hl⟩ := Gather_entry_evolves h hw
  have hs : w' = .succeeded r := by
    rcases hev with h1 | h1
    · rw [h1] at hl
      cases hl
    · exact h1
  subst hs
  refine ⟨hw', ?_⟩
  have inv := inv_gatherState numCPU tasks opts (pre ++ post)
  obtain ⟨_, hx, _⟩ := Gather_eq_some h
  rw [hx]
  apply inv.arr.symm.subset
  rw [List.mem_filterMap]
  exact ⟨_, List.mem_iff_getElem?.2 ⟨i, hw'⟩, rfl⟩

/-- A failure held at some point of a returning run has been reported by the
end of it. -/
theorem Gather_failing_reported {numCPU : Int} {tasks : List (ProducerFunc T E)}
    {opts : List optionsFunc} {pre post : List Action} {arr : List T} {err : Option E}
    (h : Gather numCPU tasks opts (pre ++ post) = some (arr, err))
    {i : Nat} {v : T} {e : E}
    (hw : (gatherState numCPU tasks opts pre).workers[i]? = some (.failing v e)) :
    (gatherState numCPU tasks opts (pre ++ post)).workers[i]? = some (.failed v e) := by
  obtain ⟨w', hw', hev, hl⟩ := Gather_entry_evolves h hw
  rcases hev with h1 | h1
  · rw [h1] at hl
    cases hl
  · rw [← h1]
    exact hw'

/-- The state right after the move `taskReturn` of a running worker. -/
theorem gatherState_taskReturn {numCPU : Int} {tasks : List (ProducerFunc T E)}
    {opts : List optionsFunc} {pre : List Action} {i : Nat} {p : ProducerFunc T E}
    (hw : (gatherState numCPU tasks opts pre).workers[i]? = some .running)
    (ht : tasks[i]? = some p) :
    (gatherState numCPU tasks opts (pre ++ [.taskReturn i])).workers[i]? =
      some (match p (gatherState numCPU tasks opts pre).ctxDone with
        | (r, none) => Worker.sending r
        | (v, some e) => Worker.failing v e) := by
  rw [gatherState_snoc, step_taskReturn (inv_gatherState numCPU tasks opts pre) hw ht]
  simp only [State.setWorker]
  rw [List.getElem?_set_self (List.getElem?_eq_some.1 hw).1]

/-- C2: when Gather returns `arr` (any producers, any options, any
schedule): (1) every task has a worker; (2) each worker is final: skipped,
or succeeded with the value its producer returned with a nil error, or
failed with the pair its producer returned; (3) `arr` is, up to order, the
list of the values of the succeeded workers, one per worker, so a failed or
skipped worker contributes nothing; (4) every element of `arr` was returned
by a producer of the input together with a nil error; (5) every producer
that was invoked and returned `(r, nil)`, at whatever point of the run and
whatever the state of the context then, has a worker that ends succeeded
with `r`, and `r` is in `arr`; (6) every producer that was invoked and
returned `(v, e)` with `e != nil` has a worker that ends failed, which
contributes nothing; (7) a worker whose producer has been invoked never
ends skipped; (8) a value held for sending at any point of the run is
published by the end. -/
theorem Gather_results_are_successes (numCPU : Int) (tasks : List (ProducerFunc T E))
    (opts : List optionsFunc) (sched : List Action) (arr : List T) (err : Option E)
    (h : Gather numCPU tasks opts sched = some (arr, err)) :
    (gatherState numCPU tasks opts sched).workers.length = tasks.length ∧
    (∀ (i : Nat) (w : Worker T E),
      (gatherState numCPU tasks opts sched).workers[i]? = some w → w.outcomeOf tasks[i]?) ∧
    arr.Perm ((gatherState numCPU tasks opts sched).workers.filterMap Worker.value) ∧
    (∀ x ∈ arr, ∃ (i : Nat) (p : ProducerFunc T E) (b : Bool),
      tasks[i]? = some p ∧ p b = (x, none)) ∧
    (∀ (pre post : List Action) (i : Nat) (p : ProducerFunc T E) (r : T),
      sched = pre ++ Action.taskReturn i :: post →
      (gatherState numCPU tasks opts pre).workers[i]? = some Worker.running →
      tasks[i]? = some p →
      p (gatherState numCPU tasks opts pre).ctxDone = (r, none) →
      (gatherState numCPU tasks opts sched).workers[i]? = some (Worker.succeeded r) ∧
        r ∈ arr) ∧
    (∀ (pre post : List Action) (i : Nat) (p : ProducerFunc T E) (v : T) (e : E),
      sched = pre ++ Action.taskReturn i :: post →
      (gatherState numCPU tasks opts pre).workers[i]? = some Worker.running →
      tasks[i]? = some p →
      p (gatherState numCPU tasks opts pre).ctxDone = (v, some e) →
      (gatherState numCPU tasks opts sched).workers[i]? = some (Worker.failed v e)) ∧
    (∀ (pre post : List Action) (i : Nat),
      sched = pre ++ post →
      (gatherState numCPU tasks opts pre).workers[i]? = some Worker.running →
      (gatherState numCPU tasks opts sched).workers[i]? ≠ some Worker.skipped) ∧
    (∀ (pre post : List Action) (i : Nat) (r : T),
      sched = pre ++ post →
      (gatherState numCPU tasks opts pre).workers[i]? = some (Worker.sending r) →
      (gatherState numCPU tasks opts sched).workers[i]? = some (Worker.succeeded r) ∧
        r ∈ arr) := by
  have inv := inv_gatherState numCPU tasks opts sched
  obtain ⟨hm, hx, _⟩ := Gather_eq_some h
  have hd : (gatherState numCPU tasks opts sched).dispatcher ≠ .looping :=
    inv.closed (by rw [hm]; intro h; cases h)
  have hperm : arr.Perm ((gatherState numCPU tasks opts sched).workers.filterMap Worker.value) := by
    rw [hx]
    exact inv.arr
  refine ⟨(inv.joined hd).1, inv.outcomes hd, hperm, ?_, ?_, ?_, ?_, ?_⟩
  · intro x hxmem
    have hx2 := hperm.subset hxmem
    rw [List.mem_filterMap] at hx2
    obtain ⟨w, hw, hv⟩ := hx2
    obtain ⟨i, hi⟩ := List.mem_iff_getElem?.1 hw
    have ha := inv.agrees i w hi
    cases w with
    | succeeded r =>
      simp only [Worker.value, Option.some.injEq] at hv
      subst hv
      obtain ⟨p, b, hp, hb⟩ := ha
      exact ⟨i, p, b, hp, hb⟩
    | started => simp [Worker.value] at hv
    | running => simp [Worker.value] at hv
    | sending r => simp [Worker.value] at hv
    | failing v e => simp [Worker.value] at hv
    | skipped => simp [Worker.value] at hv
    | failed v e => simp [Worker.value] at hv
  · intro pre post i p r hs hw ht hr
    have h1 := gatherState_taskReturn hw ht
    rw [hr] at h1
    have hs2 : sched = (pre ++ [Action.taskReturn i]) ++ post := by
      rw [hs, List.append_assoc]
      rfl
    subst hs2
    exact Gather_sending_published h h1
  · intro pre post i p v e hs hw ht hr
    have h1 := gatherState_taskReturn hw ht
    rw [hr] at h1
    have hs2 : sched = (pre ++ [Action.taskReturn i]) ++ post := by
      rw [hs, List.append_assoc]
      rfl
    subst hs2
    exact Gather_failing_reported h h1
  · intro pre post i hs hw hsk
    subst hs
    obtain ⟨w', hw', hev, _⟩ := Gather_entry_evolves h hw
    rw [hsk] at hw'
    cases hw'
    exact hev.2 rfl
  · intro pre post i r hs hw
    subst hs
    exact Gather_sending_published h hw

theorem Gather_results_are_successes_witness :
    Gather 4 lateProducers [WithMaxProcs 2] lateSchedule = some (["late"], some ErrAbort) ∧
    lateSchedule =
      [.groupGo, .groupGo, .workerSelect 0, .workerSelect 1, .taskReturn 1, .workerFail 1] ++
        Action.taskReturn 0 ::
          [.resultSend 0, .groupWait, .errStore, .closeResults, .collectorExit,
           .gatherReturn] ∧
    (gatherState 4 lateProducers [WithMaxProcs 2]
      [.groupGo, .groupGo, .workerSelect 0, .workerSelect 1, .taskReturn 1,
       .workerFail 1]).workers[0]? = some Worker.running ∧
    (gatherState 4 lateProducers [WithMaxProcs 2]
      [.groupGo, .groupGo, .workerSelect 0, .workerSelect 1, .taskReturn 1,
       .workerFail 1]).ctxDone = true ∧
    ((gatherState 4 lateProducers [WithMaxProcs 2] lateSchedule).workers[0]? =
        some (Worker.succeeded "late") ∧
      "late" ∈ ["late"]) ∧
    (gatherState 4 lateProducers [WithMaxProcs 2] lateSchedule).workers =
      [.succeeded "late", .failed "invalid" ErrAbort] :=
  ⟨by decide, by decide, by decide, by decide,
   (Gather_results_are_successes 4 lateProducers [WithMaxProcs 2] lateSchedule
      ["late"] (some ErrAbort) (by decide)).2.2.2.2.1
      [.groupGo, .groupGo, .workerSelect 0, .workerSelect 1, .taskReturn 1, .workerFail 1]
      [.resultSend 0, .groupWait, .errStore, .closeResults, .collectorExit, .gatherReturn]
      0 (fun _ => ("late", none)) "late" (by decide) (by decide) (by decide) (by decide),
   by decide⟩

/-! ### A context that is already cancelled -/

/-- With a context that is done from the start no worker gets past its
`select`, nothing is published and nothing is recorded. -/
theorem exec_ctx_done (tasks : List (ProducerFunc T E)) {o : options}
    (hctx : o.ctx.done = true) (sched : List Action) :
    (exec tasks o (initState o) sched).parentDone = true ∧
    (∀ (i : Nat) (w : Worker T E), (exec tasks o (initState o) sched).workers[i]? = some w →
      w = .started ∨ w = .skipped) ∧
    (exec tasks o (initState o) sched).arr = [] ∧
    (exec tasks o (initState o) sched).gerr = none ∧
    (exec tasks o (initState o) sched).err = none := by
  refine (exec_induction
    (fun s => s.parentDone = true ∧
      (∀ (i : Nat) (w : Worker T E), s.workers[i]? = some w → w = .started ∨ w = .skipped) ∧
      s.arr = [] ∧ s.gerr = none ∧ s.err = none) ?_ sched
    (initState o) (Inv.init _ o) ⟨hctx, by simp [initState], rfl, rfl, rfl⟩).2
  intro s s' a inv hp _ hmv
  obtain ⟨hpd, hw, ha, hg, he⟩ := hp
  have nw : ∀ (i : Nat) (w : Worker T E), s.workers[i]? = some w →
      w ≠ .started → w ≠ .skipped → False := by
    intro i w h h1 h2
    rcases hw i w h with h3 | h3
    · exact h1 h3
    · exact h2 h3
  have hset : ∀ (i : Nat) (w' : Worker T E), (w' = .started ∨ w' = .skipped) →
      ∀ (j : Nat) (w : Worker T E), (s.workers.set i w')[j]? = some w →
        w = .started ∨ w = .skipped := by
    intro i w' hw' j w h
    rw [List.getElem?_set] at h
    split at h
    · split at h
      · cases h; exact hw'
      · cases h
    · exact hw j w h
  cases hmv with
  | ctxCancel hc hp => exact ⟨rfl, hw, ha, hg, he⟩
  | groupGo hd hl hadm =>
    refine ⟨hpd, ?_, ha, hg, he⟩
    intro j w h
    simp only [List.getElem?_append] at h
    split at h
    · exact hw j w h
    · rcases Nat.eq_zero_or_pos (j - s.workers.length) with h0 | h0
      · rw [h0] at h
        left
        simpa using h.symm
      · rw [List.getElem?_eq_none (by simp only [List.length_singleton]; omega)] at h
        cases h
  | skip i hw1 hc => exact ⟨hpd, hset i _ (Or.inr rfl), ha, hg, he⟩
  | start i hw1 hc =>
    simp [State.ctxDone, hpd] at hc
  | taskOk i p r hw1 ht hr => exact (nw _ _ hw1 (by simp) (by simp)).elim
  | taskErr i p v e hw1 ht hr => exact (nw _ _ hw1 (by simp) (by simp)).elim
  | send i r hw1 hm => exact (nw _ _ hw1 (by simp) (by simp)).elim
  | sendClosed i r hw1 hm => exact (nw _ _ hw1 (by simp) (by simp)).elim
  | failFirst i v e hw1 hg1 => exact (nw _ _ hw1 (by simp) (by simp)).elim
  | failLater i v e e0 hw1 hg1 => exact (nw _ _ hw1 (by simp) (by simp)).elim
  | groupWait hd hl h0 => exact ⟨hpd, hw, ha, hg, he⟩
  | errStore e hd =>
    refine ⟨hpd, hw, ha, hg, ?_⟩
    have := inv.dret e hd
    simp only
    rw [this, hg]
  | closeResults hm hd => exact ⟨hpd, hw, ha, hg, he⟩
  | collectorExit hm hc => exact ⟨hpd, hw, ha, hg, he⟩
  | gatherReturn hm hc => exact ⟨hpd, hw, ha, hg, he⟩

/-- In a reachable state a started worker that finds its context done goes
straight to `skipped`; no other part of the state changes. -/
theorem step_workerSelect_done {tasks : List (ProducerFunc T E)} {o : options}
    {s : State T E} (inv : Inv tasks s) {i : Nat} (hw : s.workers[i]? = some .started)
    (hc : s.ctxDone = true) :
    step tasks o s (.workerSelect i) = s.setWorker i .skipped := by
  have hm := inv.waitDone_of_live hw rfl
  unfold step
  rw [step?_complete inv.safe (by rw [hm]; intro x y h; cases h) (Move.skip i hw hc)]
  rfl

/-- C5: (1) in every state a call of Gather reaches, a worker that has been
started and finds the group context done moves to `skipped` and nothing
else in the state changes: its producer is not called, `arr` gets no value
and the group records no failure.  (2) When the resolved context is already
cancelled, then under every schedule every worker is only ever started or
skipped (no producer is called), a call that has returned has returned the
empty slice and the nil error, and every schedule has a continuation on
which the call does return them. -/
theorem Gather_cancelled_context (numCPU : Int) (hcpu : 1 ≤ numCPU)
    (tasks : List (ProducerFunc T E)) (opts : List Opt) (sched : List Action) :
    (∀ i : Nat,
      (gatherState numCPU tasks (opts.map Opt.toFunc) sched).workers[i]? = some .started →
      (gatherState numCPU tasks (opts.map Opt.toFunc) sched).ctxDone = true →
      step tasks (newOptions numCPU (opts.map Opt.toFunc))
          (gatherState numCPU tasks (opts.map Opt.toFunc) sched) (.workerSelect i) =
        (gatherState numCPU tasks (opts.map Opt.toFunc) sched).setWorker i .skipped) ∧
    ((newOptions numCPU (opts.map Opt.toFunc)).ctx.done = true →
      (∀ (i : Nat) (w : Worker T E),
        (gatherState numCPU tasks (opts.map Opt.toFunc) sched).workers[i]? = some w →
          w = .started ∨ w = .skipped) ∧
      (Gather numCPU tasks (opts.map Opt.toFunc) sched = none ∨
        Gather numCPU tasks (opts.map Opt.toFunc) sched = some ([], none)) ∧
      (∃ more : List Action, Action.ctxCancel ∉ more ∧
        Gather numCPU tasks (opts.map Opt.toFunc) (sched ++ more) = some ([], none))) := by
  refine ⟨fun i hw hc => step_workerSelect_done (inv_gatherState _ _ _ _) hw hc, ?_⟩
  intro hctx
  have key : ∀ (sc : List Action) (x : List T) (y : Option E),
      Gather numCPU tasks (opts.map Opt.toFunc) sc = some (x, y) → x = [] ∧ y = none := by
    intro sc x y h
    obtain ⟨_, hx, hy⟩ := Gather_eq_some h
    have he := exec_ctx_done tasks hctx sc
    unfold gatherState at hx hy
    rw [hx, hy]
    exact ⟨he.2.2.1, he.2.2.2.2⟩
  refine ⟨(exec_ctx_done tasks hctx sched).2.1, ?_, ?_⟩
  · cases h : Gather numCPU tasks (opts.map Opt.toFunc) sched with
    | none => left; rfl
    | some r =>
      right
      obtain ⟨x, y⟩ := r
      obtain ⟨hx, hy⟩ := key sched x y h
      rw [hx, hy]
  · obtain ⟨more, hc, x, y, h⟩ :=
      Gather_returns numCPU tasks (opts.map Opt.toFunc)
        (Or.inr (newOptions_maxProcs_ne_zero numCPU hcpu opts)) sched
    obtain ⟨hx, hy⟩ := key _ x y h
    exact ⟨more, hc, by rw [h, hx, hy]⟩

theorem Gather_cancelled_context_witness :
    (1 : Int) ≤ 4 ∧
    (newOptions 4 ([Opt.context (Context.canceled 1)].map Opt.toFunc)).ctx.done = true ∧
    Gather 4 errorProducers ([Opt.context (Context.canceled 1)].map Opt.toFunc)
        [.groupGo, .workerSelect 0, .groupGo, .groupGo, .workerSelect 1, .workerSelect 2,
         .groupWait, .errStore, .closeResults, .collectorExit, .gatherReturn]
      = some ([], none) ∧
    (∃ more : List Action, Action.ctxCancel ∉ more ∧
      Gather 4 errorProducers ([Opt.context (Context.canceled 1)].map Opt.toFunc)
        ([.groupGo, .workerSelect 0, .groupGo] ++ more) = some ([], none)) :=
  ⟨by decide, by decide, by decide,
   ((Gather_cancelled_context 4 (by decide) errorProducers [Opt.context (Context.canceled 1)]
      [.groupGo, .workerSelect 0, .groupGo]).2 (by decide)).2.2⟩

/-! ### No failure, no cancellation -/

/-- A move other than the owner's cancel leaves the parent context as it is. -/
theorem Move.parentDone_eq {tasks : List (ProducerFunc T E)} {o : options} {s s' : State T E}
    {a : Action} (h : Move tasks o s a s') (ha : a ≠ .ctxCancel) :
    s'.parentDone = s.parentDone := by
  cases h <;> first | rfl | exact absurd rfl ha

/-- The parent context never goes back from done to live. -/
theorem Move.parentDone_mono {tasks : List (ProducerFunc T E)} {o : options}
    {s s' : State T E} {a : Action} (h : Move tasks o s a s')
    (hs : s'.parentDone = false) : s.parentDone = false := by
  cases h <;> first | exact hs | cases hs

theorem exec_parentDone_eq {tasks : List (ProducerFunc T E)} {o : options} :
    ∀ (more : List Action) (s : State T E), Action.ctxCancel ∉ more →
      (exec tasks o s more).parentDone = s.parentDone
  | [], _, _ => rfl
  | a :: more, s, h => by
      simp only [List.mem_cons, not_or] at h
      rw [exec_cons, exec_parentDone_eq more _ h.2]
      rcases step_cases tasks o s a with h1 | ⟨_, _, hmv⟩
      · rw [h1]
      · exact hmv.parentDone_eq (fun e => h.1 e.symm)

/-- While no producer fails under a live context and the parent context has
not fired, the group has recorded nothing and every worker is on track. -/
theorem exec_onTrack {tasks : List (ProducerFunc T E)} {o : options}
    (hok : ∀ p ∈ tasks, (p false).2 = none) (sched : List Action) :
    (exec tasks o (initState o) sched).parentDone = false →
      (exec tasks o (initState o) sched).gerr = none ∧
      ∀ (i : Nat) (w : Worker T E), (exec tasks o (initState o) sched).workers[i]? = some w →
        w.onTrack tasks[i]? := by
  refine (exec_induction
    (fun s => s.parentDone = false → s.gerr = none ∧
      ∀ (i : Nat) (w : Worker T E), s.workers[i]? = some w → w.onTrack tasks[i]?) ?_ sched
    (initState o) (Inv.init _ o) (fun _ => ⟨rfl, by simp [initState]⟩)).2
  intro s s' a inv hp _ hmv hpd'
  have hpd := hmv.parentDone_mono hpd'
  obtain ⟨hg, hw⟩ := hp hpd
  have hlive : ∀ {i : Nat} {w : Worker T E}, s.workers[i]? = some w → w.isLive = true →
      s.ctxDone = false := by
    intro i w h hl
    have := (inv.gerrNone hg).2 (inv.looping_of_live h hl)
    simp [State.ctxDone, hpd, this]
  have hset : ∀ (i : Nat) (w' : Worker T E), w'.onTrack tasks[i]? →
      ∀ (j : Nat) (w : Worker T E), (s.workers.set i w')[j]? = some w →
        w.onTrack tasks[j]? := by
    intro i w' hw' j w h
    rw [List.getElem?_set] at h
    split at h
    · rename_i hij
      subst hij
      split at h
      · cases h; exact hw'
      · cases h
    · exact hw j w h
  cases hmv with
  | ctxCancel hc hp => cases hpd'
  | groupGo hd hl hadm =>
    refine ⟨hg, ?_⟩
    intro j w h
    simp only [List.getElem?_append] at h
    split at h
    · exact hw j w h
    · rcases Nat.eq_zero_or_pos (j - s.workers.length) with h0 | h0
      · rw [h0] at h
        have : w = Worker.started := by simpa using h.symm
        subst this
        trivial
      · rw [List.getElem?_eq_none (by simp only [List.length_singleton]; omega)] at h
        cases h
  | skip i hw1 hc =>
    rw [hlive hw1 rfl] at hc
    cases hc
  | start i hw1 hc => exact ⟨hg, hset i _ trivial⟩
  | taskOk i p r hw1 ht hr =>
    refine ⟨hg, hset i _ ⟨p, ht, ?_⟩⟩
    rw [hlive hw1 rfl] at hr
    rw [hr]
  | taskErr i p v e hw1 ht hr =>
    rw [hlive hw1 rfl] at hr
    have := hok p (List.mem_iff_getElem?.2 ⟨i, ht⟩)
    rw [hr] at this
    cases this
  | send i r hw1 hm =>
    have ht := hw i _ hw1
    exact ⟨hg, hset i (Worker.succeeded r) ht⟩
  | sendClosed i r hw1 hm => exact ⟨hg, hw⟩
  | failFirst i v e hw1 hg1 => exact (hw i _ hw1).elim
  | failLater i v e e0 hw1 hg1 => exact (hw i _ hw1).elim
  | groupWait hd hl h0 => exact ⟨hg, hw⟩
  | errStore e hd => exact ⟨hg, hw⟩
  | closeResults hm hd => exact ⟨hg, hw⟩
  | collectorExit hm hc => exact ⟨hg, hw⟩
  | gatherReturn hm hc => exact ⟨hg, hw⟩

/-- What Gather returns when no producer fails and the context has not fired. -/
theorem Gather_onTrack {numCPU : Int} {tasks : List (ProducerFunc T E)}
    {opts : List optionsFunc} (hok : ∀ p ∈ tasks, (p false).2 = none)
    {sched : List Action} {arr : List T} {err : Option E}
    (h : Gather numCPU tasks opts sched = some (arr, err))
    (hpd : (gatherState numCPU tasks opts sched).parentDone = false) :
    err = none ∧ arr.length = tasks.length ∧
      arr.Perm (tasks.map (fun p => (p false).1)) := by
  have inv := inv_gatherState numCPU tasks opts sched
  obtain ⟨hm, hx, hy⟩ := Gather_eq_some h
  obtain ⟨hg, hw⟩ := exec_onTrack (o := newOptions numCPU opts) hok sched hpd
  have hd : (gatherState numCPU tasks opts sched).dispatcher ≠ .looping :=
    inv.closed (by rw [hm]; intro h; cases h)
  obtain ⟨hlen, hfin⟩ := inv.joined hd
  have hws : (gatherState numCPU tasks opts sched).workers =
      tasks.map (fun p => Worker.succeeded (p false).1) := by
    apply List.ext_getElem?
    intro i
    rw [List.getElem?_map]
    cases hwi : (gatherState numCPU tasks opts sched).workers[i]? with
    | none =>
      have : tasks.length ≤ i := by
        rw [← hlen]
        exact List.getElem?_eq_none_iff.1 hwi
      rw [List.getElem?_eq_none this]
      rfl
    | some w =>
      have hl := hfin i w hwi
      have ht := hw i w hwi
      cases w with
      | started => simp [Worker.isLive] at hl
      | running => simp [Worker.isLive] at hl
      | sending r => simp [Worker.isLive] at hl
      | failing v e => exact ht.elim
      | skipped => exact ht.elim
      | failed v e => exact ht.elim
      | succeeded r =>
        obtain ⟨p, hp, hr⟩ := ht
        rw [hp, ← hr]
        rfl
  have hperm : arr.Perm (tasks.map (fun p => (p false).1)) := by
    have h1 := inv.arr
    have h2 : ∀ l : List (ProducerFunc T E),
        (l.map (fun p => (Worker.succeeded (p false).1 : Worker T E))).filterMap Worker.value
          = l.map (fun p => (p false).1) := by
      intro l
      induction l with
      | nil => rfl
      | cons p l ih => simp [List.filterMap_cons, Worker.value, ih]
    rw [hws, h2] at h1
    rw [hx]
    exact h1
  refine ⟨?_, ?_, hperm⟩
  · rw [hy]
    rcases inv.err with he | he
    · exact he
    · rw [he]
      exact hg
  · rw [List.Perm.length_eq hperm, List.length_map]

/-- C1: processor count at least one (so the resolved cap is at least one,
and every cap `n >= 1` is obtained with `WithMaxProcs(n)`), producers that
do not fail under a live context, any options.  (1) Whenever Gather has
returned and the configured context has not fired, the error is nil, the
slice has `len(producers)` elements and is, up to order, the list of the
producers' outputs.  (2) From every schedule on which the context has not
fired there is a continuation on which Gather returns such a result. -/
theorem Gather_all_succeed (numCPU : Int) (hcpu : 1 ≤ numCPU)
    (tasks : List (ProducerFunc T E)) (hok : ∀ p ∈ tasks, (p false).2 = none)
    (opts : List Opt) (sched : List Action)
    (hctx : (gatherState numCPU tasks (opts.map Opt.toFunc) sched).parentDone = false) :
    (∀ (arr : List T) (err : Option E),
      Gather numCPU tasks (opts.map Opt.toFunc) sched = some (arr, err) →
      err = none ∧ arr.length = tasks.length ∧
        arr.Perm (tasks.map (fun p => (p false).1))) ∧
    (∃ (more : List Action) (arr : List T),
      Gather numCPU tasks (opts.map Opt.toFunc) (sched ++ more) = some (arr, none) ∧
      arr.length = tasks.length ∧ arr.Perm (tasks.map (fun p => (p false).1))) := by
  refine ⟨fun arr err h => Gather_onTrack hok h hctx, ?_⟩
  obtain ⟨more, hc, x, y, h⟩ :=
    Gather_returns numCPU tasks (opts.map Opt.toFunc)
      (Or.inr (newOptions_maxProcs_ne_zero numCPU hcpu opts)) sched
  have hpd : (gatherState numCPU tasks (opts.map Opt.toFunc) (sched ++ more)).parentDone
      = false := by
    unfold gatherState at hctx ⊢
    rw [exec_append, exec_parentDone_eq more _ hc]
    exact hctx
  obtain ⟨hy, hl, hp⟩ := Gather_onTrack hok h hpd
  subst hy
  exact ⟨more, x, h, hl, hp⟩

set_option maxRecDepth 100000 in
theorem Gather_all_succeed_witness :
    (1 : Int) ≤ 8 ∧
    (∀ p ∈ letterProducers, (p false).2 = none) ∧
    (gatherState 8 letterProducers ([Opt.maxProcs 4].map Opt.toFunc)
      letterSchedule).parentDone = false ∧
    Gather 8 letterProducers ([Opt.maxProcs 4].map Opt.toFunc) letterSchedule =
      some (["d", "a", "f", "e", "c", "b", "g", "h", "i", "j"], none) ∧
    ((none : Option String) = none ∧
      (["d", "a", "f", "e", "c", "b", "g", "h", "i", "j"] : List String).length =
        letterProducers.length ∧
      (["d", "a", "f", "e", "c", "b", "g", "h", "i", "j"] : List String).Perm
        (letterProducers.map (fun p => (p false).1))) :=
  ⟨by decide, by decide, by decide, by decide,
   (Gather_all_succeed 8 (by decide) letterProducers (by decide) [Opt.maxProcs 4]
      letterSchedule (by decide)).1 _ _ (by decide)⟩

/-! ### The returned error -/

/-- What holds of the error on every run: when Gather returns `err`, it is
nil or the failure `g.err` the group recorded; it is nil when no worker
reported a failure; while `g.err` is nil no worker has reported one; and a
recorded failure is the error some producer returned, unchanged. -/
theorem Gather_error_provenance (numCPU : Int) (tasks : List (ProducerFunc T E))
    (opts : List optionsFunc) (sched : List Action) (arr : List T) (err : Option E)
    (h : Gather numCPU tasks opts sched = some (arr, err)) :
    (err = none ∨ err = (gatherState numCPU tasks opts sched).gerr) ∧
    ((∀ (i : Nat) (v : T) (e : E),
        (gatherState numCPU tasks opts sched).workers[i]? ≠ some (Worker.failed v e)) →
      err = none) ∧
    ((gatherState numCPU tasks opts sched).gerr = none →
      ∀ (i : Nat) (v : T) (e : E),
        (gatherState numCPU tasks opts sched).workers[i]? ≠ some (Worker.failed v e)) ∧
    (∀ e, (gatherState numCPU tasks opts sched).gerr = some e →
      ∃ (i : Nat) (v : T) (p : ProducerFunc T E) (b : Bool),
        (gatherState numCPU tasks opts sched).workers[i]? = some (Worker.failed v e) ∧
        tasks[i]? = some p ∧ p b = (v, some e)) := by
  have inv := inv_gatherState numCPU tasks opts sched
  obtain ⟨_, _, hy⟩ := Gather_eq_some h
  refine ⟨?_, ?_, fun hg => (inv.gerrNone hg).1, ?_⟩
  · rw [hy]
    exact inv.err
  · intro hno
    rw [hy]
    rcases inv.err with he | he
    · exact he
    · rw [he]
      cases hg : (gatherState numCPU tasks opts sched).gerr with
      | none => rfl
      | some e =>
        obtain ⟨i, v, hi⟩ := inv.gerrSome e hg
        exact absurd hi (hno i v e)
  · intro e hg
    obtain ⟨i, v, hi⟩ := inv.gerrSome e hg
    obtain ⟨p, b, hp, hb⟩ := inv.agrees i _ hi
    exact ⟨i, v, p, b, hi, hp, hb⟩

/-- C3, evaluated on the producers of `Test_Gather_Error` with the default
options: on the schedule `lostErrorSchedule` the second producer fails with
`ErrAbort`, the group records it and `dispatch` returns it, yet Gather
returns the nil error, because `return arr, err` reads `err` before the
dispatcher goroutine has assigned it. -/
theorem Gather_error_lost :
    Gather 4 errorProducers [] lostErrorSchedule = some (["a", "c"], none) ∧
    (gatherState 4 errorProducers [] lostErrorSchedule).workers =
      [.succeeded "a", .failed "invalid" ErrAbort, .succeeded "c"] ∧
    (gatherState 4 errorProducers [] lostErrorSchedule).gerr = some ErrAbort ∧
    (gatherState 4 errorProducers [] lostErrorSchedule).dispatcher =
      .returned (some ErrAbort) := by
  decide

/-- C10, evaluated on the producers of `Test_Gather_Error` under
`WithMaxProcs(1)`: the sequential loop yields the values before the first
failure and that failure, `(["a"], ErrAbort)`; on the one-at-a-time schedule
followed by `close(results)`, the end of the collector and `return arr, err`
Gather returns the same slice but the nil error, the assignment to `err`
not having run yet. -/
theorem Gather_cap_one_error_lost :
    gatherSequential errorProducers = (["a"], some ErrAbort) ∧
    (newOptions 4 [WithMaxProcs 1]).maxProcs = 1 ∧
    Gather 4 errorProducers [WithMaxProcs 1]
        (oneAtATimeSchedule ++ [.closeResults, .collectorExit, .gatherReturn]) =
      some (["a"], none) ∧
    (gatherState 4 errorProducers [WithMaxProcs 1]
        (oneAtATimeSchedule ++ [.closeResults, .collectorExit, .gatherReturn])).workers =
      [.succeeded "a", .failed "invalid" ErrAbort, .skipped] ∧
    Gather 4 errorProducers [WithMaxProcs 1]
        (oneAtATimeSchedule ++ [.errStore, .closeResults, .collectorExit, .gatherReturn]) =
      some (["a"], some ErrAbort) := by
  decide

/-! ### A cap of one -/

theorem seqAfter_snoc (ts : List (ProducerFunc T E)) (p : ProducerFunc T E) :
    seqAfter (ts ++ [p]) = seqStep (seqAfter ts) p := by
  simp [seqAfter, List.foldl_append]

theorem take_succ_of_getElem? {α : Type} (l : List α) (n : Nat) (a : α)
    (h : l[n]? = some a) : l.take (n + 1) = l.take n ++ [a] := by
  rw [List.take_succ, h]
  rfl

theorem foldl_seqStep_some (ts : List (ProducerFunc T E)) :
    ∀ (ws : List (Worker T E)) (arr : List T) (e : E),
      (ts.foldl seqStep (ws, arr, some e)).2 = (arr, some e) := by
  induction ts with
  | nil => intro ws arr e; rfl
  | cons p ts ih =>
    intro ws arr e
    simp only [List.foldl_cons, seqStep]
    exact ih _ _ _

theorem foldl_seqStep_none (ts : List (ProducerFunc T E)) :
    ∀ (ws : List (Worker T E)) (arr : List T),
      (ts.foldl seqStep (ws, arr, none)).2 =
        (arr ++ (gatherSequential ts).1, (gatherSequential ts).2) := by
  induction ts with
  | nil => intro ws arr; simp [gatherSequential]
  | cons p ts ih =>
    intro ws arr
    simp only [List.foldl_cons, seqStep, gatherSequential]
    rcases hp : p false with ⟨r, _ | e⟩
    · simp only
      rw [ih]
      simp
    · simp only
      rw [foldl_seqStep_some]
      simp

/-- The fold that the invariant uses computes the sequential loop of the
specification. -/
theorem seqAfter_eq_gatherSequential (ts : List (ProducerFunc T E)) :
    (seqAfter ts).2 = gatherSequential ts := by
  unfold seqAfter
  rw [foldl_seqStep_none]
  simp


theorem Worker.isLive_of_inTurn {task : Option (ProducerFunc T E)} {g : Option E}
    {w : Worker T E} (h : w.inTurn task g) : w.isLive = true := by
  cases w <;> first | rfl | exact h.elim

theorem set_append_singleton {α : Type} (ws : List α) (w w' : α) :
    (ws ++ [w]).set ws.length w' = ws ++ [w'] := by
  induction ws with
  | nil => rfl
  | cons x ws ih => simp [ih]

/-- In a sequential state the only live worker is the last one. -/
theorem Sequential.live_last {tasks : List (ProducerFunc T E)} {s : State T E}
    (h : Sequential tasks s) {i : Nat} {w : Worker T E} (hw : s.workers[i]? = some w)
    (hl : w.isLive = true) :
    ∃ ws : List (Worker T E), s.workers = ws ++ [w] ∧ i = ws.length ∧
      (ws, s.arr, s.gerr) = seqAfter (tasks.take ws.length) ∧
      (∀ x ∈ ws, x.isLive = false) ∧
      (s.gerr ≠ none → s.canceled = true) ∧
      w.inTurn tasks[ws.length]? s.gerr := by
  obtain ⟨ws, rest, hws, hseq, hfin, hcan, hrest⟩ := h
  rcases hrest with rfl | ⟨w0, rfl, hturn⟩
  · rw [hws, List.append_nil] at hw
    have := hfin w (List.mem_iff_getElem?.2 ⟨i, hw⟩)
    rw [hl] at this
    cases this
  · rw [hws, List.getElem?_append] at hw
    split at hw
    · have := hfin w (List.mem_iff_getElem?.2 ⟨i, hw⟩)
      rw [hl] at this
      cases this
    · rename_i hge
      rcases Nat.eq_zero_or_pos (i - ws.length) with h0 | h0
      · rw [h0] at hw
        have hww : w0 = w := by simpa using hw
        subst hww
        exact ⟨ws, hws, by omega, hseq, hfin, hcan, hturn⟩
      · rw [List.getElem?_eq_none (by simp only [List.length_singleton]; omega)] at hw
        cases hw

/-- The live worker of a sequential state takes its next step and stays live. -/
theorem Sequential.turn {tasks : List (ProducerFunc T E)} {s : State T E}
    (h : Sequential tasks s) {i : Nat} {w w' : Worker T E} (hw : s.workers[i]? = some w)
    (hl : w.isLive = true)
    (hturn : w.inTurn tasks[i]? s.gerr → w'.inTurn tasks[i]? s.gerr) :
    Sequential tasks (s.setWorker i w') := by
  obtain ⟨ws, hws, hi, hseq, hfin, hcan, hw0⟩ := h.live_last hw hl
  subst hi
  refine ⟨ws, [w'], ?_, hseq, hfin, hcan, Or.inr ⟨w', rfl, hturn hw0⟩⟩
  simp only [State.setWorker]
  rw [hws, set_append_singleton]

/-- The live worker of a sequential state finishes: the loop is one task
further. -/
theorem Sequential.finish {tasks : List (ProducerFunc T E)} {s s' : State T E}
    (h : Sequential tasks s) (w' : Worker T E) {i : Nat} {w : Worker T E}
    (hw : s.workers[i]? = some w)
    (hl : w.isLive = true) (hl' : w'.isLive = false)
    (hws' : s'.workers = s.workers.set i w')
    (hcan : s'.gerr ≠ none → s'.canceled = true)
    (hstep : ∀ p, tasks[i]? = some p → w.inTurn tasks[i]? s.gerr →
      ∀ ws, seqStep (ws, s.arr, s.gerr) p = (ws ++ [w'], s'.arr, s'.gerr))
    (hlt : i < tasks.length) :
    Sequential tasks s' := by
  obtain ⟨ws, hws, hi, hseq, hfin, _, hw0⟩ := h.live_last hw hl
  subst hi
  have ht : tasks[ws.length]? = some tasks[ws.length] := List.getElem?_eq_getElem hlt
  refine ⟨ws ++ [w'], [], ?_, ?_, ?_, hcan, Or.inl rfl⟩
  · rw [hws', hws, set_append_singleton, List.append_nil]
  · rw [List.length_append, List.length_singleton,
      take_succ_of_getElem? tasks ws.length _ ht, seqAfter_snoc, ← hseq]
    exact (hstep _ ht hw0 ws).symm
  · intro x hx
    rcases List.mem_append.1 hx with hx | hx
    · exact hfin x hx
    · have : x = w' := by simpa using hx
      rw [this]
      exact hl'


/-- Under a cap of one every move keeps the state sequential, as long as the
parent context has not fired. -/
theorem Move.sequential {tasks : List (ProducerFunc T E)} {o : options} {s s' : State T E}
    {a : Action} (hcap : o.maxProcs = 1) (inv : Inv tasks s) (h : Move tasks o s a s')
    (hs : s.parentDone = false → Sequential tasks s) (hpd' : s'.parentDone = false) :
    Sequential tasks s' := by
  have hpd := h.parentDone_mono hpd'
  have hseq := hs hpd
  have hcan0 : s.gerr ≠ none → s.canceled = true := by
    obtain ⟨_, _, _, _, _, hc, _⟩ := hseq
    exact hc
  have hlooping : ∀ {i : Nat} {w : Worker T E}, s.workers[i]? = some w → w.isLive = true →
      s.gerr = none → s.ctxDone = false := by
    intro i w hw hl hg
    have := (inv.gerrNone hg).2 (inv.looping_of_live hw hl)
    simp [State.ctxDone, hpd, this]
  have hlt : ∀ {i : Nat} {w : Worker T E}, s.workers[i]? = some w → i < tasks.length := by
    intro i w hw
    exact lt_of_lt_of_le (List.getElem?_eq_some.1 hw).1 inv.len
  cases h with
  | ctxCancel hc hp => cases hpd'
  | groupGo hd hl ha =>
    have h0 : s.live = 0 := by
      simp only [admits, hcap, Bool.or_eq_true, decide_eq_true_eq] at ha
      omega
    obtain ⟨ws, rest, hws, hsq, hfin, hcan, hrest⟩ := hseq
    have hnil : rest = [] := by
      rcases hrest with h1 | ⟨w, h1, hturn⟩
      · exact h1
      · have hw : s.workers[ws.length]? = some w := by
          rw [hws, h1]
          simp
        have := (live_eq_zero_iff s).1 h0 _ _ hw
        rw [Worker.isLive_of_inTurn hturn] at this
        cases this
    subst hnil
    refine ⟨ws, [Worker.started], ?_, hsq, hfin, hcan, Or.inr ⟨_, rfl, trivial⟩⟩
    simp only
    rw [hws, List.append_nil]
  | skip i hw hc =>
    have hg : s.gerr ≠ none := by
      intro hg
      rw [hlooping hw rfl hg] at hc
      cases hc
    obtain ⟨e, he⟩ := Option.ne_none_iff_exists'.1 hg
    refine hseq.finish Worker.skipped hw rfl rfl rfl hcan0 ?_ (hlt hw)
    intro p _ _ ws
    simp [seqStep, State.setWorker, he]
  | start i hw hc =>
    have hg : s.gerr = none := by
      by_contra hg
      have := hcan0 hg
      simp [State.ctxDone, this] at hc
    exact hseq.turn hw rfl (fun _ => hg)
  | taskOk i p r hw ht hr =>
    refine hseq.turn hw rfl (fun hin => ⟨hin, p, ht, ?_⟩)
    rw [hlooping hw rfl hin] at hr
    exact hr
  | taskErr i p v e hw ht hr =>
    refine hseq.turn hw rfl (fun hin => ⟨hin, p, ht, ?_⟩)
    rw [hlooping hw rfl hin] at hr
    exact hr
  | send i r hw hm =>
    refine hseq.finish (Worker.succeeded r) hw rfl rfl rfl hcan0 ?_ (hlt hw)
    intro p hp hin ws
    obtain ⟨hg, p0, hp0, hr⟩ := hin
    rw [hp] at hp0
    cases hp0
    simp [seqStep, State.setWorker, hg, hr]
  | sendClosed i r hw hm => exact hseq
  | failFirst i v e hw hg =>
    refine hseq.finish (Worker.failed v e) hw rfl rfl rfl (fun _ => rfl) ?_ (hlt hw)
    intro p hp hin ws
    obtain ⟨_, p0, hp0, hr⟩ := hin
    rw [hp] at hp0
    cases hp0
    simp [seqStep, State.setWorker, hg, hr]
  | failLater i v e e0 hw hg =>
    obtain ⟨_, _, _, _, _, _, hin⟩ := hseq.live_last hw rfl
    rw [hg] at hin
    cases hin.1
  | groupWait hd hl h0 =>
    obtain ⟨ws, rest, hws, hsq, hfin, _, hrest⟩ := hseq
    exact ⟨ws, rest, hws, hsq, hfin, fun _ => rfl, hrest⟩
  | errStore e hd => exact hseq
  | closeResults hm hd => exact hseq
  | collectorExit hm hc => exact hseq
  | gatherReturn hm hc => exact hseq

theorem exec_sequential {tasks : List (ProducerFunc T E)} {o : options}
    (hcap : o.maxProcs = 1) (sched : List Action) :
    (exec tasks o (initState o) sched).parentDone = false →
      Sequential tasks (exec tasks o (initState o) sched) := by
  refine (exec_induction (fun s => s.parentDone = false → Sequential tasks s) ?_ sched
    (initState o) (Inv.init _ o) ?_).2
  · intro s s' a inv hp _ hmv hpd'
    exact hmv.sequential hcap inv hp hpd'
  · intro _
    exact ⟨[], [], rfl, rfl, by simp, by simp [initState], Or.inl rfl⟩

/-- What the code does of C10.  Under a resolved cap of one and a context
that has not fired, when Gather returns `(arr, err)` the worker entries, the
slice and the failure recorded by the group are those of the sequential
loop: `arr` is exactly the values of the producers before the first failure
in input order, the workers after a failure are skipped, `g.err` is that
first failure.  The returned `err` is `g.err` or, when the caller reads it
too early, nil. -/
theorem Gather_cap_one_sequential (numCPU : Int) (tasks : List (ProducerFunc T E))
    (opts : List optionsFunc) (hcap : (newOptions numCPU opts).maxProcs = 1)
    (sched : List Action) (arr : List T) (err : Option E)
    (h : Gather numCPU tasks opts sched = some (arr, err))
    (hctx : (gatherState numCPU tasks opts sched).parentDone = false) :
    (gatherState numCPU tasks opts sched).workers = (seqAfter tasks).1 ∧
    arr = (gatherSequential tasks).1 ∧
    (gatherState numCPU tasks opts sched).gerr = (gatherSequential tasks).2 ∧
    (err = (gatherSequential tasks).2 ∨ err = none) := by
  have inv := inv_gatherState numCPU tasks opts sched
  obtain ⟨hm, hx, hy⟩ := Gather_eq_some h
  have hd : (gatherState numCPU tasks opts sched).dispatcher ≠ .looping :=
    inv.closed (by rw [hm]; intro h; cases h)
  obtain ⟨hlen, hfin⟩ := inv.joined hd
  obtain ⟨ws, rest, hws, hsq, _, _, hrest⟩ := @exec_sequential T E tasks _ hcap sched hctx
  change (gatherState numCPU tasks opts sched).workers = ws ++ rest at hws
  change (ws, (gatherState numCPU tasks opts sched).arr,
    (gatherState numCPU tasks opts sched).gerr) = _ at hsq
  have hnil : rest = [] := by
    rcases hrest with h1 | ⟨w, h1, hturn⟩
    · exact h1
    · have hw : (gatherState numCPU tasks opts sched).workers[ws.length]? = some w := by
        rw [hws, h1]
        simp
      have := hfin _ _ hw
      rw [Worker.isLive_of_inTurn hturn] at this
      cases this
  subst hnil
  rw [List.append_nil] at hws
  have hwl : ws.length = tasks.length := by rw [← hws]; exact hlen
  rw [hwl, List.take_length] at hsq
  have h2 := seqAfter_eq_gatherSequential tasks
  rw [← hsq] at h2
  simp only at h2
  have harr : (gatherState numCPU tasks opts sched).arr = (gatherSequential tasks).1 := by
    rw [← h2]
  have hgerr : (gatherState numCPU tasks opts sched).gerr = (gatherSequential tasks).2 := by
    rw [← h2]
  refine ⟨?_, ?_, hgerr, ?_⟩
  · rw [hws, ← hsq]
  · rw [hx, harr]
  · rw [hy]
    rcases inv.err with he | he
    · right; exact he
    · left; rw [he, hgerr]

end Parallel
